import Mathlib

set_option maxHeartbeats 1000000

/- Verification development for the norostat versioned-table diff store
   (src/acquisition/norostat/norostat_sql.py).  The database state is
   modelled relationally: a version ledger, three interning pools, the
   raw diff table and the derived point tables.  record_long_raw is
   modelled as the sequence of SQL statements it executes, run inside a
   single transaction that rolls back on error. -/

/-- A table version is the `(release_date, parse_time)` pair; the SQL
compares such pairs with row-value comparisons, which are lexicographic. -/
abbrev Version := Nat × Nat

/-- Lexicographic strict order on versions, mirroring `(a,b) < (c,d)` in SQL. -/
def vlt (a b : Version) : Prop := a.1 < b.1 ∨ (a.1 = b.1 ∧ a.2 < b.2)

/-- Lexicographic order on versions, mirroring `(a,b) <= (c,d)` in SQL. -/
def vle (a b : Version) : Prop := a.1 < b.1 ∨ (a.1 = b.1 ∧ a.2 ≤ b.2)

instance (a b : Version) : Decidable (vlt a b) := by unfold vlt; exact inferInstance

instance (a b : Version) : Decidable (vle a b) := by unfold vle; exact inferInstance

theorem vle_refl (a : Version) : vle a a := by unfold vle; omega

theorem vle_trans {a b c : Version} (h1 : vle a b) (h2 : vle b c) : vle a c := by
  unfold vle at *; omega

theorem vlt_trans {a b c : Version} (h1 : vlt a b) (h2 : vlt b c) : vlt a c := by
  unfold vlt at *; omega

theorem vle_antisymm {a b : Version} (h1 : vle a b) (h2 : vle b a) : a = b := by
  rcases a with ⟨a1, a2⟩; rcases b with ⟨b1, b2⟩
  unfold vle at *; simp only [Prod.mk.injEq]; omega

theorem vlt_irrefl (a : Version) : ¬ vlt a a := by unfold vlt; omega

theorem vle_of_vlt {a b : Version} (h : vlt a b) : vle a b := by unfold vlt vle at *; omega

theorem vlt_of_vlt_of_vle {a b c : Version} (h1 : vlt a b) (h2 : vle b c) : vlt a c := by
  unfold vlt vle at *; omega

theorem vlt_of_vle_of_vlt {a b c : Version} (h1 : vle a b) (h2 : vlt b c) : vlt a c := by
  unfold vlt vle at *; omega

theorem not_vle_iff {a b : Version} : ¬ vle a b ↔ vlt b a := by unfold vlt vle; omega

theorem not_vlt_iff {a b : Version} : ¬ vlt a b ↔ vle b a := by unfold vlt vle; omega

theorem vle_total (a b : Version) : vle a b ∨ vle b a := by unfold vle; omega

theorem vlt_ne {a b : Version} (h : vlt a b) : a ≠ b := by
  intro he; subst he; exact vlt_irrefl a h

theorem vlt_trichotomy (a b : Version) : vlt a b ∨ a = b ∨ vlt b a := by
  rcases a with ⟨a1, a2⟩; rcases b with ⟨b1, b2⟩
  unfold vlt; simp only [Prod.mk.injEq]; omega

theorem vle_iff_vlt_or_eq {a b : Version} : vle a b ↔ vlt a b ∨ a = b := by
  rcases a with ⟨a1, a2⟩; rcases b with ⟨b1, b2⟩
  unfold vle vlt; simp only [Prod.mk.injEq]; omega

/-- A cell of the raw data-table is identified by the interned id triple
`(measurement_type_id, location_id, week_id)`. -/
abbrev CellId := Nat × Nat × Nat

/-- One row of `norostat_raw_datatable_diffs`: the version columns, the
interned cell key, and `new_value`, where `none` is the SQL NULL tombstone
meaning "removed". -/
structure DiffRow where
  version : Version
  cell : CellId
  new_value : Option String
deriving DecidableEq, Repr

/-- Pick the row with the later version, keeping the first argument on ties. -/
def betterOf (e : DiffRow) (r : Option DiffRow) : Option DiffRow :=
  match r with
  | none => some e
  | some f => if vlt f.version e.version then some e else some f

/-- The diff row for cell `c` with the greatest version `≤ w`, if any: the
`latest` row selected by the anti-join in the previous/next-state queries of
record_long_raw. -/
def latestIn : List DiffRow → Version → CellId → Option DiffRow
  | [], _, _ => none
  | e :: rest, w, c =>
    if e.cell = c ∧ vle e.version w then betterOf e (latestIn rest w c)
    else latestIn rest w c

/-- Effective value of cell `c` as of version `w`: the `new_value` of the
latest diff row at or before `w`; `none` both when that row is a tombstone
and when no such row exists (the cell is absent either way). -/
def eff (l : List DiffRow) (w : Version) (c : CellId) : Option String :=
  (latestIn l w c).bind DiffRow.new_value

theorem latestIn_eq_none_iff {l : List DiffRow} {w : Version} {c : CellId} :
    latestIn l w c = none ↔ ∀ e ∈ l, e.cell = c → ¬ vle e.version w := by
  induction l with
  | nil => simp [latestIn]
  | cons e rest ih =>
    by_cases h : e.cell = c ∧ vle e.version w
    · simp only [latestIn, if_pos h]
      constructor
      · intro hb
        exfalso
        cases hr : latestIn rest w c <;> simp [betterOf, hr] at hb
        split at hb <;> simp at hb
      · intro hall
        exact absurd h.2 (hall e (List.mem_cons_self e rest) h.1)
    · simp only [latestIn, if_neg h, ih]
      constructor
      · intro hall f hf hc
        rcases List.mem_cons.mp hf with he | hf2
        · subst he; intro hle; exact h ⟨hc, hle⟩
        · exact hall f hf2 hc
      · intro hall f hf hc
        exact hall f (List.mem_cons_of_mem e hf) hc

theorem latestIn_spec {l : List DiffRow} {w : Version} {c : CellId} :
    ∀ {f : DiffRow}, latestIn l w c = some f →
    f ∈ l ∧ f.cell = c ∧ vle f.version w ∧
      ∀ e ∈ l, e.cell = c → vle e.version w → vle e.version f.version := by
  induction l with
  | nil => intro f h; simp [latestIn] at h
  | cons e rest ih =>
    intro f h
    by_cases he : e.cell = c ∧ vle e.version w
    · simp only [latestIn, if_pos he] at h
      cases hr : latestIn rest w c with
      | none =>
        rw [hr] at h
        simp only [betterOf, Option.some.injEq] at h
        subst h
        refine ⟨List.mem_cons_self _ _, he.1, he.2, ?_⟩
        intro g hg hgc hgw
        rcases List.mem_cons.mp hg with hge | hgr
        · subst hge; exact vle_refl _
        · exact absurd hgw (latestIn_eq_none_iff.mp hr g hgr hgc)
      | some f0 =>
        obtain ⟨hf0mem, hf0c, hf0w, hf0max⟩ := ih hr
        rw [hr] at h
        simp only [betterOf] at h
        by_cases hcmp : vlt f0.version e.version
        · rw [if_pos hcmp] at h
          simp only [Option.some.injEq] at h
          subst h
          refine ⟨List.mem_cons_self _ _, he.1, he.2, ?_⟩
          intro g hg hgc hgw
          rcases List.mem_cons.mp hg with hge | hgr
          · subst hge; exact vle_refl _
          · exact vle_trans (hf0max g hgr hgc hgw) (vle_of_vlt hcmp)
        · rw [if_neg hcmp] at h
          simp only [Option.some.injEq] at h
          subst h
          refine ⟨List.mem_cons_of_mem e hf0mem, hf0c, hf0w, ?_⟩
          intro g hg hgc hgw
          rcases List.mem_cons.mp hg with hge | hgr
          · subst hge; exact not_vlt_iff.mp hcmp
          · exact hf0max g hgr hgc hgw
    · simp only [latestIn, if_neg he] at h
      obtain ⟨hmem, hc, hw, hmax⟩ := ih h
      refine ⟨List.mem_cons_of_mem e hmem, hc, hw, ?_⟩
      intro g hg hgc hgw
      rcases List.mem_cons.mp hg with hge | hgr
      · subst hge; exact absurd ⟨hgc, hgw⟩ he
      · exact hmax g hgr hgc hgw

theorem latestIn_eq_some_of {l : List DiffRow} {w : Version} {c : CellId} {f : DiffRow}
    (hmem : f ∈ l) (hc : f.cell = c) (hw : vle f.version w)
    (hmax : ∀ e ∈ l, e.cell = c → vle e.version w → vle e.version f.version)
    (huniq : ∀ e ∈ l, e.cell = c → e.version = f.version → e = f) :
    latestIn l w c = some f := by
  cases hr : latestIn l w c with
  | none => exact absurd hw (latestIn_eq_none_iff.mp hr f hmem hc)
  | some g =>
    obtain ⟨hgmem, hgc, hgw, hgmax⟩ := latestIn_spec hr
    have h1 : vle g.version f.version := hmax g hgmem hgc hgw
    have h2 : vle f.version g.version := hgmax f hmem hc hw
    have : g = f := huniq g hgmem hgc (vle_antisymm h1 h2)
    rw [this]

/-- Lookup in an association list keyed by cell id (first match wins, the
way a keyed SQL table is read). -/
def assocLookup (c : CellId) : List (CellId × String) → Option String
  | [] => none
  | r :: rest => if r.1 = c then some r.2 else assocLookup c rest

theorem assocLookup_eq_none_iff {c : CellId} {l : List (CellId × String)} :
    assocLookup c l = none ↔ c ∉ l.map Prod.fst := by
  induction l with
  | nil => simp [assocLookup]
  | cons r rest ih =>
    by_cases h : r.1 = c
    · simp [assocLookup, h]
    · simp [assocLookup, h, ih, Ne.symm h]

theorem assocLookup_mem {c : CellId} {x : String} {l : List (CellId × String)}
    (h : assocLookup c l = some x) : (c, x) ∈ l := by
  induction l with
  | nil => simp [assocLookup] at h
  | cons r rest ih =>
    by_cases hr : r.1 = c
    · simp only [assocLookup, if_pos hr, Option.some.injEq] at h
      refine List.mem_cons.mpr (Or.inl ?_)
      rw [← hr, ← h]
    · simp only [assocLookup, if_neg hr] at h
      exact List.mem_cons_of_mem r (ih h)

theorem assocLookup_eq_some_of_mem {c : CellId} {x : String} {l : List (CellId × String)}
    (hN : (l.map Prod.fst).Nodup) (h : (c, x) ∈ l) : assocLookup c l = some x := by
  induction l with
  | nil => simp at h
  | cons r rest ih =>
    simp only [List.map_cons, List.nodup_cons] at hN
    rcases List.mem_cons.mp h with he | hm
    · subst he; simp [assocLookup]
    · have hne : r.1 ≠ c := by
        intro hc
        exact hN.1 (hc ▸ List.mem_map_of_mem Prod.fst hm)
      simp only [assocLookup, if_neg hne]
      exact ih hN.2 hm

theorem assocLookup_isSome_of_key {c : CellId} {l : List (CellId × String)}
    (h : c ∈ l.map Prod.fst) : ∃ x, assocLookup c l = some x := by
  cases hr : assocLookup c l with
  | none => exact absurd h (assocLookup_eq_none_iff.mp hr)
  | some x => exact ⟨x, rfl⟩

/-- Interned-string id: position of the string in its pool.  The pools use
AUTO_INCREMENT ids assigned in insertion order, so the list position is a
faithful model of the id. -/
def idOf (pool : List String) (s : String) : Nat :=
  match pool with
  | [] => 0
  | t :: rest => if t = s then 0 else idOf rest s + 1

theorem idOf_append_of_mem {pool ext : List String} {s : String} (h : s ∈ pool) :
    idOf (pool ++ ext) s = idOf pool s := by
  induction pool with
  | nil => simp at h
  | cons t rest ih =>
    by_cases ht : t = s
    · simp [idOf, ht]
    · rcases List.mem_cons.mp h with he | hm
      · exact absurd he.symm ht
      · simp [idOf, ht, ih hm]

theorem idOf_inj {pool : List String} {s t : String}
    (hs : s ∈ pool) (ht : t ∈ pool) (h : idOf pool s = idOf pool t) : s = t := by
  induction pool with
  | nil => simp at hs
  | cons u rest ih =>
    by_cases hus : u = s <;> by_cases hut : u = t
    · rw [← hus, hut]
    · rw [idOf, idOf, if_pos hus, if_neg hut] at h
      omega
    · rw [idOf, idOf, if_neg hus, if_pos hut] at h
      omega
    · rw [idOf, idOf, if_neg hus, if_neg hut] at h
      have hs2 : s ∈ rest := by
        rcases List.mem_cons.mp hs with he | hm
        · exact absurd he.symm hus
        · exact hm
      have ht2 : t ∈ rest := by
        rcases List.mem_cons.mp ht with he | hm
        · exact absurd he.symm hut
        · exact hm
      exact ih hs2 ht2 (by omega)

/-- The pool-update statement of record_long_raw: `INSERT ... SELECT DISTINCT
s FROM parsed WHERE s NOT IN pool` — append each distinct new string. -/
def internAll (pool : List String) (xs : List String) : List String :=
  pool ++ (xs.dedup.filter (fun s => !decide (s ∈ pool)))

theorem mem_internAll_left {pool xs : List String} {s : String} (h : s ∈ pool) :
    s ∈ internAll pool xs := List.mem_append_left _ h

theorem mem_internAll_of_mem {pool xs : List String} {s : String} (h : s ∈ xs) :
    s ∈ internAll pool xs := by
  by_cases hp : s ∈ pool
  · exact List.mem_append_left _ hp
  · refine List.mem_append_right _ ?_
    rw [List.mem_filter]
    exact ⟨List.mem_dedup.mpr h, by simp [hp]⟩

/-- The three interning pools (`*_pool` tables). -/
structure Pools where
  measurement_type : List String
  location : List String
  week : List String
deriving DecidableEq, Repr

/-- One row of the temporary table `norostat_raw_datatable_parsed`. -/
structure ParsedRow where
  measurement_type : String
  location : String
  week : String
  value : String
deriving DecidableEq, Repr

/-- Primary key of the parsed table: `(measurement_type, location, week)`. -/
def parsedKey (r : ParsedRow) : String × String × String :=
  (r.measurement_type, r.location, r.week)

/-- The rows inserted into the parsed table: the long-format data frame
columns `(week, measurement_type, value)` plus the single location of the
call. -/
def parsedRowsOf (df : List (String × String × String)) (location : String) :
    List ParsedRow :=
  df.map (fun r => ⟨r.2.1, location, r.1, r.2.2⟩)

/-- Interned cell key of a parsed row, via the three pool joins. -/
def tripleId (ps : Pools) (r : ParsedRow) : CellId :=
  (idOf ps.measurement_type r.measurement_type,
   idOf ps.location r.location,
   idOf ps.week r.week)

/-- Pool contents after the three pool-update statements. -/
def internPools (ps : Pools) (rows : List ParsedRow) : Pools :=
  ⟨internAll ps.measurement_type (rows.map ParsedRow.measurement_type),
   internAll ps.location (rows.map ParsedRow.location),
   internAll ps.week (rows.map ParsedRow.week)⟩

/-- The parsed snapshot in interned form: cell key and value of each row,
as produced by the pool joins in the diff-recording statements. -/
def internedSnap (ps : Pools) (rows : List ParsedRow) : List (CellId × String) :=
  rows.map (fun r => (tripleId ps r, r.value))

/-- The distinct cells mentioned anywhere in a diff list. -/
def cellsOf (d : List DiffRow) : List CellId := (d.map DiffRow.cell).dedup

/-- Reconstructed state table as of version `v` (the temporary tables
`norostat_raw_datatable_previous` / `_next`): one `(cell, value)` row per
cell whose latest diff at or before `v` is not a NULL tombstone. -/
def stateTable (d : List DiffRow) (v : Version) : List (CellId × String) :=
  (cellsOf d).filterMap (fun c => (eff d v c).map (fun x => (c, x)))

theorem mem_stateTable {d : List DiffRow} {v : Version} {c : CellId} {x : String} :
    (c, x) ∈ stateTable d v ↔ eff d v c = some x := by
  constructor
  · intro h
    obtain ⟨c0, _, hc0⟩ := List.mem_filterMap.mp h
    cases he : eff d v c0 with
    | none => rw [he] at hc0; simp at hc0
    | some y =>
      rw [he] at hc0
      simp only [Option.map_some', Option.some.injEq, Prod.mk.injEq] at hc0
      rw [← hc0.1, he, hc0.2]
  · intro h
    refine List.mem_filterMap.mpr ⟨c, ?_, by rw [h]; rfl⟩
    have hl : ∃ f, latestIn d v c = some f := by
      cases hr : latestIn d v c with
      | none => rw [eff, hr] at h; simp at h
      | some f => exact ⟨f, rfl⟩
    obtain ⟨f, hf⟩ := hl
    obtain ⟨hmem, hcell, _, _⟩ := latestIn_spec hf
    rw [← hcell]
    exact List.mem_dedup.mpr (List.mem_map_of_mem DiffRow.cell hmem)

theorem stateTable_keys_sub {d : List DiffRow} {v : Version} :
    ∀ c ∈ (stateTable d v).map Prod.fst, ∃ x, eff d v c = some x := by
  intro c hc
  obtain ⟨⟨c0, x0⟩, hmem, hfst⟩ := List.mem_map.mp hc
  obtain hx := mem_stateTable.mp hmem
  exact ⟨x0, by rw [← hfst]; exact hx⟩

theorem key_mem_stateTable {d : List DiffRow} {v : Version} {c : CellId} {x : String}
    (h : eff d v c = some x) : c ∈ (stateTable d v).map Prod.fst :=
  List.mem_map_of_mem Prod.fst (mem_stateTable.mpr h)

theorem nodup_filterMap_keys (cs : List CellId) (g : CellId → Option String)
    (hN : cs.Nodup) :
    ((cs.filterMap (fun c => (g c).map (fun x => (c, x)))).map Prod.fst).Nodup := by
  induction cs with
  | nil => simp
  | cons c rest ih =>
    simp only [List.nodup_cons] at hN
    cases hg : g c with
    | none => simpa [List.filterMap_cons, hg] using ih hN.2
    | some x =>
      simp only [List.filterMap_cons, hg, Option.map_some', List.map_cons,
        List.nodup_cons]
      refine ⟨?_, ih hN.2⟩
      intro hc
      obtain ⟨⟨c1, x1⟩, hm1, hf1⟩ := List.mem_map.mp hc
      obtain ⟨c2, hc2, he2⟩ := List.mem_filterMap.mp hm1
      cases hg2 : g c2 with
      | none => rw [hg2] at he2; simp at he2
      | some y2 =>
        rw [hg2] at he2
        simp only [Option.map_some', Option.some.injEq, Prod.mk.injEq] at he2
        apply hN.1
        have hcc : c1 = c := hf1
        rw [he2.1, hcc] at hc2
        exact hc2

theorem stateTable_keys_nodup {d : List DiffRow} {v : Version} :
    ((stateTable d v).map Prod.fst).Nodup :=
  nodup_filterMap_keys _ _ (List.nodup_dedup _)

/-- Forward diff, additions half (the first INSERT into the diffs table):
every `(cell, value)` of the source snapshot whose pair is not present in
the reference state table becomes a diff row carrying the value. -/
def forwardAdds (p prev : List (CellId × String)) (v : Version) : List DiffRow :=
  (p.filter (fun r => !decide (r ∈ prev))).map (fun r => ⟨v, r.1, some r.2⟩)

/-- Forward diff, deletions half (the second INSERT): every cell of the
reference state table absent from the source snapshot becomes a NULL
tombstone row. -/
def forwardTombs (p prev : List (CellId × String)) (v : Version) : List DiffRow :=
  (prev.filter (fun r => !decide (r.1 ∈ p.map Prod.fst))).map (fun r => ⟨v, r.1, none⟩)

theorem mem_forwardAdds {p prev : List (CellId × String)} {v : Version} {e : DiffRow} :
    e ∈ forwardAdds p prev v ↔
      ∃ c x, e = ⟨v, c, some x⟩ ∧ (c, x) ∈ p ∧ (c, x) ∉ prev := by
  constructor
  · intro h
    obtain ⟨⟨c, x⟩, hm, he⟩ := List.mem_map.mp h
    rw [List.mem_filter] at hm
    refine ⟨c, x, he.symm, hm.1, ?_⟩
    simpa using hm.2
  · rintro ⟨c, x, he, hp, hnp⟩
    subst he
    exact List.mem_map.mpr ⟨(c, x), List.mem_filter.mpr ⟨hp, by simpa using hnp⟩, rfl⟩

theorem mem_forwardTombs {p prev : List (CellId × String)} {v : Version} {e : DiffRow} :
    e ∈ forwardTombs p prev v ↔
      ∃ c, e = ⟨v, c, none⟩ ∧ (∃ x, (c, x) ∈ prev) ∧ c ∉ p.map Prod.fst := by
  constructor
  · intro h
    obtain ⟨⟨c, x⟩, hm, he⟩ := List.mem_map.mp h
    rw [List.mem_filter] at hm
    refine ⟨c, he.symm, ⟨x, hm.1⟩, ?_⟩
    simpa using hm.2
  · rintro ⟨c, he, ⟨x, hx⟩, hnp⟩
    subst he
    exact List.mem_map.mpr ⟨(c, x), List.mem_filter.mpr ⟨hx, by simpa using hnp⟩, rfl⟩

/-- The next-version query: `SELECT ... WHERE (release_date, parse_time) >
(v) ORDER BY release_date, parse_time LIMIT 1` over the version list. -/
def ledgerNext : List Version → Version → Option Version
  | [], _ => none
  | u :: rest, v =>
    let r := ledgerNext rest v
    if vlt v u then
      match r with
      | none => some u
      | some w => if vlt u w then some u else some w
    else r

theorem ledgerNext_eq_none_iff {vl : List Version} {v : Version} :
    ledgerNext vl v = none ↔ ∀ u ∈ vl, ¬ vlt v u := by
  induction vl with
  | nil => simp [ledgerNext]
  | cons u rest ih =>
    by_cases h : vlt v u
    · simp only [ledgerNext, if_pos h]
      constructor
      · intro hb
        cases hr : ledgerNext rest v <;> rw [hr] at hb <;> simp at hb
        split at hb <;> simp at hb
      · intro hall
        exact absurd h (hall u (List.mem_cons_self _ _))
    · simp only [ledgerNext, if_neg h, ih]
      constructor
      · intro hall u2 hu2
        rcases List.mem_cons.mp hu2 with he | hm
        · subst he; exact h
        · exact hall u2 hm
      · intro hall u2 hu2
        exact hall u2 (List.mem_cons_of_mem u hu2)

theorem ledgerNext_spec {vl : List Version} {v : Version} :
    ∀ {n : Version}, ledgerNext vl v = some n →
      n ∈ vl ∧ vlt v n ∧ ∀ u ∈ vl, vlt v u → vle n u := by
  induction vl with
  | nil => intro n h; simp [ledgerNext] at h
  | cons u rest ih =>
    intro n h
    by_cases hu : vlt v u
    · simp only [ledgerNext, if_pos hu] at h
      cases hr : ledgerNext rest v with
      | none =>
        rw [hr] at h
        simp only [Option.some.injEq] at h
        subst h
        refine ⟨List.mem_cons_self _ _, hu, ?_⟩
        intro u2 hu2 hv2
        rcases List.mem_cons.mp hu2 with he | hm
        · subst he; exact vle_refl _
        · exact absurd hv2 (ledgerNext_eq_none_iff.mp hr u2 hm)
      | some w =>
        obtain ⟨hwmem, hwv, hwmin⟩ := ih hr
        simp only [hr] at h
        by_cases hc : vlt u w
        · rw [if_pos hc] at h
          simp only [Option.some.injEq] at h
          subst h
          refine ⟨List.mem_cons_self _ _, hu, ?_⟩
          intro u2 hu2 hv2
          rcases List.mem_cons.mp hu2 with he | hm
          · subst he; exact vle_refl _
          · exact vle_trans (vle_of_vlt hc) (hwmin u2 hm hv2)
        · rw [if_neg hc] at h
          simp only [Option.some.injEq] at h
          subst h
          refine ⟨List.mem_cons_of_mem u hwmem, hwv, ?_⟩
          intro u2 hu2 hv2
          rcases List.mem_cons.mp hu2 with he | hm
          · subst he; exact not_vlt_iff.mp hc
          · exact hwmin u2 hm hv2
    · simp only [ledgerNext, if_neg hu] at h
      obtain ⟨hmem, hv, hmin⟩ := ih h
      refine ⟨List.mem_cons_of_mem u hmem, hv, ?_⟩
      intro u2 hu2 hv2
      rcases List.mem_cons.mp hu2 with he | hm
      · subst he; exact absurd hv2 hu
      · exact hmin u2 hm hv2

theorem ledgerNext_eq_some_of {vl : List Version} {v n : Version}
    (hmem : n ∈ vl) (hv : vlt v n) (hmin : ∀ u ∈ vl, vlt v u → vle n u) :
    ledgerNext vl v = some n := by
  cases hr : ledgerNext vl v with
  | none => exact absurd hv (ledgerNext_eq_none_iff.mp hr n hmem)
  | some w =>
    obtain ⟨hwmem, hwv, hwmin⟩ := ledgerNext_spec hr
    have h1 : vle n w := hmin w hwmem hwv
    have h2 : vle w n := hwmin n hmem hv
    rw [vle_antisymm h2 h1]

/-- One row of `norostat_point_diffs`. -/
structure PointRow where
  version : Version
  location_id : Nat
  epiweek : Int
  new_value : Option Int
deriving DecidableEq, Repr

/-- The persistent database state: the raw version ledger
`norostat_raw_datatable_version_list`, the three interning pools, the raw
diff table `norostat_raw_datatable_diffs`, and the derived point tables
`norostat_point_version_list` / `norostat_point_diffs`. -/
structure DB where
  version_list : List Version
  pools : Pools
  diffs : List DiffRow
  pointVersions : List Version
  pointDiffs : List PointRow
deriving DecidableEq, Repr

/-- The freshly created schema: all tables empty. -/
def emptyDB : DB := ⟨[], ⟨[], [], []⟩, [], [], []⟩

/-- Failure conditions of record_long_raw: the duplicate-version
IntegrityError on the version list is caught and re-raised as a dedicated
error (lines 244-250), distinguishable from any other integrity failure
such as a duplicate primary key in the parsed temporary table. -/
inductive RecordError where
  | duplicateVersion
  | integrityError
deriving DecidableEq, Repr

/-- The SQL statements executed by record_long_raw, in program order. -/
inductive Step where
  | createParsed
  | insertParsed
  | computePrevious
  | queryNext
  | computeNext
  | registerVersion
  | internMeasurementType
  | internLocation
  | internWeek
  | insertForwardAdds
  | insertForwardTombs
  | deleteNextDiffs
  | insertRepairAdds
  | insertRepairTombs
  | createPointTables
deriving DecidableEq, Repr

/-- In-transaction state: the persistent database plus the temporary
tables and the fetched next-version result. -/
structure Txn where
  db : DB
  parsed : List ParsedRow
  previous : List (CellId × String)
  nextVer : Option Version
  nextState : List (CellId × String)
deriving Repr

/-- Semantics of one SQL statement of record_long_raw.  The steps guarded
in the source by `if len(next_version_if_any) != 0` are no-ops when no next
version exists. -/
def execStep (df : List (String × String × String)) (release_date parse_time : Nat)
    (location : String) : Step → Txn → Except RecordError Txn
  | .createParsed, t => .ok { t with parsed := [] }
  | .insertParsed, t =>
    if ((parsedRowsOf df location).map parsedKey).Nodup then .ok { t with parsed := parsedRowsOf df location }
    else .error .integrityError
  | .computePrevious, t => .ok { t with previous := stateTable t.db.diffs (release_date, parse_time) }
  | .queryNext, t => .ok { t with nextVer := ledgerNext t.db.version_list (release_date, parse_time) }
  | .computeNext, t =>
    match t.nextVer with
    | none => .ok t
    | some n => .ok { t with nextState := stateTable t.db.diffs n }
  | .registerVersion, t =>
    if (release_date, parse_time) ∈ t.db.version_list then .error .duplicateVersion
    else .ok { t with db := { t.db with version_list := t.db.version_list ++ [(release_date, parse_time)] } }
  | .internMeasurementType, t => .ok { t with db := { t.db with pools := { t.db.pools with measurement_type := internAll t.db.pools.measurement_type (t.parsed.map ParsedRow.measurement_type) } } }
  | .internLocation, t => .ok { t with db := { t.db with pools := { t.db.pools with location := internAll t.db.pools.location (t.parsed.map ParsedRow.location) } } }
  | .internWeek, t => .ok { t with db := { t.db with pools := { t.db.pools with week := internAll t.db.pools.week (t.parsed.map ParsedRow.week) } } }
  | .insertForwardAdds, t => .ok { t with db := { t.db with diffs := t.db.diffs ++ forwardAdds (internedSnap t.db.pools t.parsed) t.previous (release_date, parse_time) } }
  | .insertForwardTombs, t => .ok { t with db := { t.db with diffs := t.db.diffs ++ forwardTombs (internedSnap t.db.pools t.parsed) t.previous (release_date, parse_time) } }
  | .deleteNextDiffs, t =>
    match t.nextVer with
    | none => .ok t
    | some n => .ok { t with db := { t.db with diffs := t.db.diffs.filter (fun d => !decide (d.version = n)) } }
  | .insertRepairAdds, t =>
    match t.nextVer with
    | none => .ok t
    | some n => .ok { t with db := { t.db with diffs := t.db.diffs ++ forwardAdds t.nextState (internedSnap t.db.pools t.parsed) n } }
  | .insertRepairTombs, t =>
    match t.nextVer with
    | none => .ok t
    | some n => .ok { t with db := { t.db with diffs := t.db.diffs ++ forwardTombs t.nextState (internedSnap t.db.pools t.parsed) n } }
  | .createPointTables, t => .ok t

/-- The statement sequence of record_long_raw, in source order (lines
144, 153, 172, 197, 220, 245, 253, 262, 271, 282, 297, 316, 320, 336, 350). -/
def recordProgram : List Step :=
  [.createParsed, .insertParsed, .computePrevious, .queryNext, .computeNext,
   .registerVersion, .internMeasurementType, .internLocation, .internWeek,
   .insertForwardAdds, .insertForwardTombs,
   .deleteNextDiffs, .insertRepairAdds, .insertRepairTombs, .createPointTables]

/-- Run a statement sequence, stopping at the first error. -/
def runSteps (df : List (String × String × String)) (release_date parse_time : Nat)
    (location : String) : List Step → Txn → Except RecordError Txn
  | [], t => .ok t
  | s :: rest, t =>
    match execStep df release_date parse_time location s t with
    | .ok t2 => runSteps df release_date parse_time location rest t2
    | .error e => .error e

/-- Model of `record_long_raw(long_raw)` where
`long_raw = (long_raw_df, release_date, parse_time, location)`: run the
statement program inside one transaction and return the new database
state, or the error that aborted it. -/
def record_long_raw (db : DB) (long_raw_df : List (String × String × String))
    (release_date parse_time : Nat) (location : String) : Except RecordError DB :=
  match runSteps long_raw_df release_date parse_time location recordProgram
      ⟨db, [], [], none, []⟩ with
  | .ok t => .ok t.db
  | .error e => .error e

/-- The durably committed state after a record_long_raw call: the new state
on success, the original state when the transaction was rolled back. -/
def recordCommitted (db : DB) (long_raw_df : List (String × String × String))
    (release_date parse_time : Nat) (location : String) : DB :=
  match record_long_raw db long_raw_df release_date parse_time location with
  | .ok db2 => db2
  | .error _ => db

/-- Closed form of the successful record_long_raw state: versions gain the
new version, the pools gain the new strings, and the diff table gains the
forward diff against the previous state, then — only when a later version
already exists — loses the rows at that next version and gains the repair
diff from the new snapshot to the old next state. -/
def recordResult (db : DB) (long_raw_df : List (String × String × String))
    (release_date parse_time : Nat) (location : String) : DB :=
  let v : Version := (release_date, parse_time)
  let rows := parsedRowsOf long_raw_df location
  let prev := stateTable db.diffs v
  let nV := ledgerNext db.version_list v
  let ps := internPools db.pools rows
  let p := internedSnap ps rows
  let base := db.diffs ++ forwardAdds p prev v ++ forwardTombs p prev v
  { db with
    version_list := db.version_list ++ [v]
    pools := ps
    diffs :=
      match nV with
      | none => base
      | some n =>
        base.filter (fun d => !decide (d.version = n))
          ++ forwardAdds (stateTable db.diffs n) p n
          ++ forwardTombs (stateTable db.diffs n) p n }

theorem record_ok_eq {db : DB} {df : List (String × String × String)}
    {rd pt : Nat} {loc : String}
    (hk : ((parsedRowsOf df loc).map parsedKey).Nodup)
    (hv : (rd, pt) ∉ db.version_list) :
    record_long_raw db df rd pt loc = .ok (recordResult db df rd pt loc) := by
  cases hnv : ledgerNext db.version_list (rd, pt) with
  | none =>
    simp [record_long_raw, recordProgram, runSteps, execStep, hk, hv, hnv,
      recordResult, internPools, internedSnap, List.append_assoc]
  | some n =>
    simp [record_long_raw, recordProgram, runSteps, execStep, hk, hv, hnv,
      recordResult, internPools, internedSnap, List.append_assoc]

theorem record_err_dup {db : DB} {df : List (String × String × String)}
    {rd pt : Nat} {loc : String}
    (hk : ((parsedRowsOf df loc).map parsedKey).Nodup)
    (hv : (rd, pt) ∈ db.version_list) :
    record_long_raw db df rd pt loc = .error .duplicateVersion := by
  cases hnv : ledgerNext db.version_list (rd, pt) with
  | none => simp [record_long_raw, recordProgram, runSteps, execStep, hk, hv, hnv]
  | some n => simp [record_long_raw, recordProgram, runSteps, execStep, hk, hv, hnv]

theorem record_err_keys {db : DB} {df : List (String × String × String)}
    {rd pt : Nat} {loc : String}
    (hk : ¬ ((parsedRowsOf df loc).map parsedKey).Nodup) :
    record_long_raw db df rd pt loc = .error .integrityError := by
  simp [record_long_raw, recordProgram, runSteps, execStep, hk]

theorem record_ok_iff {db : DB} {df : List (String × String × String)}
    {rd pt : Nat} {loc : String} {db2 : DB} :
    record_long_raw db df rd pt loc = .ok db2 ↔
      ((parsedRowsOf df loc).map parsedKey).Nodup ∧ (rd, pt) ∉ db.version_list ∧
        db2 = recordResult db df rd pt loc := by
  by_cases hk : ((parsedRowsOf df loc).map parsedKey).Nodup
  · by_cases hv : (rd, pt) ∈ db.version_list
    · rw [record_err_dup hk hv]
      simp [hk, hv]
    · rw [record_ok_eq hk hv]
      simp [hk, hv, eq_comm]
  · rw [record_err_keys hk]
    simp [hk]

/-- Primary key of the diffs table: at most one row per (cell, version). -/
def PK (l : List DiffRow) : Prop :=
  ∀ e ∈ l, ∀ f ∈ l, e.cell = f.cell → e.version = f.version → e = f

/-- Foreign key of the diffs table into the version list. -/
def VersOk (l : List DiffRow) (vl : List Version) : Prop :=
  ∀ e ∈ l, e.version ∈ vl

theorem assocPairs_unique {l : List (CellId × String)} {c : CellId} {x y : String}
    (hN : (l.map Prod.fst).Nodup) (hx : (c, x) ∈ l) (hy : (c, y) ∈ l) : x = y := by
  have h1 := assocLookup_eq_some_of_mem hN hx
  have h2 := assocLookup_eq_some_of_mem hN hy
  rw [h1] at h2
  exact Option.some_inj.mp h2

theorem version_of_forwardAdds {p prev : List (CellId × String)} {v : Version}
    {e : DiffRow} (h : e ∈ forwardAdds p prev v) : e.version = v := by
  obtain ⟨c, x, he, _, _⟩ := mem_forwardAdds.mp h
  rw [he]

theorem version_of_forwardTombs {p prev : List (CellId × String)} {v : Version}
    {e : DiffRow} (h : e ∈ forwardTombs p prev v) : e.version = v := by
  obtain ⟨c, he, _, _⟩ := mem_forwardTombs.mp h
  rw [he]

theorem forwardAdds_inj {p prev : List (CellId × String)} {v : Version}
    (hpN : (p.map Prod.fst).Nodup) {e f : DiffRow}
    (he : e ∈ forwardAdds p prev v) (hf : f ∈ forwardAdds p prev v)
    (hc : e.cell = f.cell) : e = f := by
  obtain ⟨c1, x1, he1, hp1, _⟩ := mem_forwardAdds.mp he
  obtain ⟨c2, x2, he2, hp2, _⟩ := mem_forwardAdds.mp hf
  subst he1; subst he2
  simp only at hc
  subst hc
  rw [assocPairs_unique hpN hp1 hp2]

theorem forwardTombs_inj {p prev : List (CellId × String)} {v : Version}
    {e f : DiffRow} (he : e ∈ forwardTombs p prev v) (hf : f ∈ forwardTombs p prev v)
    (hc : e.cell = f.cell) : e = f := by
  obtain ⟨c1, he1, _, _⟩ := mem_forwardTombs.mp he
  obtain ⟨c2, he2, _, _⟩ := mem_forwardTombs.mp hf
  subst he1; subst he2
  simp only at hc
  subst hc
  rfl

theorem cell_forwardAdds_mem_keys {p prev : List (CellId × String)} {v : Version}
    {e : DiffRow} (h : e ∈ forwardAdds p prev v) : e.cell ∈ p.map Prod.fst := by
  obtain ⟨c, x, he, hp, _⟩ := mem_forwardAdds.mp h
  subst he
  exact List.mem_map_of_mem Prod.fst hp

theorem cell_forwardTombs_not_mem_keys {p prev : List (CellId × String)} {v : Version}
    {e : DiffRow} (h : e ∈ forwardTombs p prev v) : e.cell ∉ p.map Prod.fst := by
  obtain ⟨c, he, _, hnp⟩ := mem_forwardTombs.mp h
  subst he
  exact hnp

theorem filter_version_ne (l : List DiffRow) (n : Version) (h : ∀ e ∈ l, e.version ≠ n) :
    l.filter (fun d => !decide (d.version = n)) = l := by
  induction l with
  | nil => rfl
  | cons e rest ih =>
    have he : e.version ≠ n := h e (List.mem_cons_self _ _)
    simp only [List.filter_cons, he, decide_False, Bool.not_false, if_pos]
    rw [ih (fun f hf => h f (List.mem_cons_of_mem e hf))]

/-- Diff table after an in-order insertion at `v` (no later version exists):
the old rows plus the forward diff of snapshot `p` against the state at `v`. -/
def extendDiffs (d : List DiffRow) (p : List (CellId × String)) (v : Version) :
    List DiffRow :=
  d ++ forwardAdds p (stateTable d v) v ++ forwardTombs p (stateTable d v) v

/-- Diff table after an out-of-order insertion at `v` with next version `n`:
old rows minus the rows at `n`, plus the forward diff of `p` at `v`, plus
the repair diff at `n` from `p` to the old state at `n`. -/
def repairDiffs (d : List DiffRow) (p : List (CellId × String)) (v n : Version) :
    List DiffRow :=
  d.filter (fun e => !decide (e.version = n))
    ++ forwardAdds p (stateTable d v) v ++ forwardTombs p (stateTable d v) v
    ++ forwardAdds (stateTable d n) p n ++ forwardTombs (stateTable d n) p n

theorem mem_extendDiffs {d : List DiffRow} {p : List (CellId × String)} {v : Version}
    {e : DiffRow} :
    e ∈ extendDiffs d p v ↔
      e ∈ d ∨ e ∈ forwardAdds p (stateTable d v) v ∨
        e ∈ forwardTombs p (stateTable d v) v := by
  simp [extendDiffs]

theorem mem_repairDiffs {d : List DiffRow} {p : List (CellId × String)} {v n : Version}
    {e : DiffRow} :
    e ∈ repairDiffs d p v n ↔
      (e ∈ d ∧ e.version ≠ n) ∨
        e ∈ forwardAdds p (stateTable d v) v ∨ e ∈ forwardTombs p (stateTable d v) v ∨
        e ∈ forwardAdds (stateTable d n) p n ∨ e ∈ forwardTombs (stateTable d n) p n := by
  simp [repairDiffs, List.mem_filter, and_comm]

/-- The successful record_long_raw result in terms of `extendDiffs` /
`repairDiffs`. -/
theorem recordResult_diffs {db : DB} {df : List (String × String × String)}
    {rd pt : Nat} {loc : String} :
    (recordResult db df rd pt loc).diffs =
      match ledgerNext db.version_list (rd, pt) with
      | none =>
        extendDiffs db.diffs
          (internedSnap (internPools db.pools (parsedRowsOf df loc)) (parsedRowsOf df loc))
          (rd, pt)
      | some n =>
        repairDiffs db.diffs
          (internedSnap (internPools db.pools (parsedRowsOf df loc)) (parsedRowsOf df loc))
          (rd, pt) n := by
  cases hnv : ledgerNext db.version_list (rd, pt) with
  | none => simp [recordResult, hnv, extendDiffs, List.append_assoc]
  | some n =>
    have hne : vlt (rd, pt) n := (ledgerNext_spec hnv).2.1
    have hvn : (rd, pt) ≠ n := vlt_ne hne
    simp only [recordResult, hnv, repairDiffs]
    rw [List.filter_append, List.filter_append]
    rw [filter_version_ne
      (forwardAdds (internedSnap (internPools db.pools (parsedRowsOf df loc)) (parsedRowsOf df loc)) (stateTable db.diffs (rd, pt)) (rd, pt)) n
      (fun e he => by rw [version_of_forwardAdds he]; exact hvn)]
    rw [filter_version_ne
      (forwardTombs (internedSnap (internPools db.pools (parsedRowsOf df loc)) (parsedRowsOf df loc)) (stateTable db.diffs (rd, pt)) (rd, pt)) n
      (fun e he => by rw [version_of_forwardTombs he]; exact hvn)]

theorem recordResult_versions {db : DB} {df : List (String × String × String)}
    {rd pt : Nat} {loc : String} :
    (recordResult db df rd pt loc).version_list = db.version_list ++ [(rd, pt)] := by
  cases hnv : ledgerNext db.version_list (rd, pt) with
  | none => simp [recordResult, hnv]
  | some n => simp [recordResult, hnv]

theorem recordResult_pools {db : DB} {df : List (String × String × String)}
    {rd pt : Nat} {loc : String} :
    (recordResult db df rd pt loc).pools = internPools db.pools (parsedRowsOf df loc) := by
  cases hnv : ledgerNext db.version_list (rd, pt) with
  | none => simp [recordResult, hnv]
  | some n => simp [recordResult, hnv]

theorem recordResult_points {db : DB} {df : List (String × String × String)}
    {rd pt : Nat} {loc : String} :
    (recordResult db df rd pt loc).pointVersions = db.pointVersions ∧
      (recordResult db df rd pt loc).pointDiffs = db.pointDiffs := by
  cases hnv : ledgerNext db.version_list (rd, pt) with
  | none => simp [recordResult, hnv]
  | some n => simp [recordResult, hnv]

theorem latestIn_congr {l1 l2 : List DiffRow} {w1 w2 : Version} {c : CellId}
    (hPK : ∀ e ∈ l1, ∀ f ∈ l1, e.cell = f.cell → e.version = f.version → e = f)
    (hiff : ∀ e, (e ∈ l1 ∧ e.cell = c ∧ vle e.version w1) ↔
      (e ∈ l2 ∧ e.cell = c ∧ vle e.version w2)) :
    latestIn l1 w1 c = latestIn l2 w2 c := by
  cases h1 : latestIn l1 w1 c with
  | none =>
    symm
    rw [latestIn_eq_none_iff]
    intro e he hc hw
    have h2 := (hiff e).mpr ⟨he, hc, hw⟩
    exact latestIn_eq_none_iff.mp h1 e h2.1 hc h2.2.2
  | some f =>
    obtain ⟨hmem, hc, hw, hmax⟩ := latestIn_spec h1
    have hf2 := (hiff f).mp ⟨hmem, hc, hw⟩
    symm
    refine latestIn_eq_some_of hf2.1 hc hf2.2.2 ?_ ?_
    · intro e he hec hew
      have he1 := (hiff e).mpr ⟨he, hec, hew⟩
      exact hmax e he1.1 hec he1.2.2
    · intro e he hec hev
      have hew : vle e.version w2 := by rw [hev]; exact hf2.2.2
      have he1 := (hiff e).mpr ⟨he, hec, hew⟩
      exact hPK e he1.1 f hmem (hec.trans hc.symm) hev

theorem eff_congr {l1 l2 : List DiffRow} {w1 w2 : Version} {c : CellId}
    (hPK : ∀ e ∈ l1, ∀ f ∈ l1, e.cell = f.cell → e.version = f.version → e = f)
    (hiff : ∀ e, (e ∈ l1 ∧ e.cell = c ∧ vle e.version w1) ↔
      (e ∈ l2 ∧ e.cell = c ∧ vle e.version w2)) :
    eff l1 w1 c = eff l2 w2 c := by
  rw [eff, eff, latestIn_congr hPK hiff]

theorem PK_of_mem_iff {l1 l2 : List DiffRow} (h : ∀ x, x ∈ l1 ↔ x ∈ l2)
    (hPK : PK l2) : PK l1 := by
  intro e he f hf hc hv
  exact hPK e ((h e).mp he) f ((h f).mp hf) hc hv

theorem PK_sub {l1 l2 : List DiffRow} (h : ∀ x ∈ l1, x ∈ l2) (hPK : PK l2) : PK l1 := by
  intro e he f hf hc hv
  exact hPK e (h e he) f (h f hf) hc hv

theorem PK_append_block {l b : List DiffRow} {u : Version}
    (hPKl : PK l) (hlu : ∀ e ∈ l, e.version ≠ u)
    (hbu : ∀ e ∈ b, e.version = u)
    (hbinj : ∀ e ∈ b, ∀ f ∈ b, e.cell = f.cell → e = f) : PK (l ++ b) := by
  intro e he f hf hc hv
  rcases List.mem_append.mp he with he1 | he1 <;> rcases List.mem_append.mp hf with hf1 | hf1
  · exact hPKl e he1 f hf1 hc hv
  · exact absurd (hv.trans (hbu f hf1)) (hlu e he1)
  · exact absurd (hv.symm.trans (hbu e he1)) (hlu f hf1)
  · exact hbinj e he1 f hf1 hc

theorem fwd_block_version {p prev : List (CellId × String)} {v : Version} :
    ∀ e ∈ forwardAdds p prev v ++ forwardTombs p prev v, e.version = v := by
  intro e he
  rcases List.mem_append.mp he with h | h
  · exact version_of_forwardAdds h
  · exact version_of_forwardTombs h

theorem fwd_block_inj {p prev : List (CellId × String)} {v : Version}
    (hpN : (p.map Prod.fst).Nodup) :
    ∀ e ∈ forwardAdds p prev v ++ forwardTombs p prev v,
    ∀ f ∈ forwardAdds p prev v ++ forwardTombs p prev v,
      e.cell = f.cell → e = f := by
  intro e he f hf hc
  rcases List.mem_append.mp he with he1 | he1 <;> rcases List.mem_append.mp hf with hf1 | hf1
  · exact forwardAdds_inj hpN he1 hf1 hc
  · have h1 : e.cell ∈ p.map Prod.fst := cell_forwardAdds_mem_keys he1
    have h2 : f.cell ∉ p.map Prod.fst := cell_forwardTombs_not_mem_keys hf1
    rw [hc] at h1
    exact absurd h1 h2
  · have h1 : f.cell ∈ p.map Prod.fst := cell_forwardAdds_mem_keys hf1
    have h2 : e.cell ∉ p.map Prod.fst := cell_forwardTombs_not_mem_keys he1
    rw [hc] at h2
    exact absurd h1 h2
  · exact forwardTombs_inj he1 hf1 hc

theorem PK_extend {d : List DiffRow} {p : List (CellId × String)} {v : Version}
    (hPKd : PK d) (hpN : (p.map Prod.fst).Nodup)
    (hdv : ∀ e ∈ d, e.version ≠ v) : PK (extendDiffs d p v) := by
  refine @PK_of_mem_iff _ (d ++ (forwardAdds p (stateTable d v) v ++ forwardTombs p (stateTable d v) v)) ?_ ?_
  · intro x; simp [extendDiffs]
  · exact PK_append_block hPKd hdv fwd_block_version (fwd_block_inj hpN)

theorem repair_block_inj {d : List DiffRow} {p : List (CellId × String)} {n : Version} :
    ∀ e ∈ forwardAdds (stateTable d n) p n ++ forwardTombs (stateTable d n) p n,
    ∀ f ∈ forwardAdds (stateTable d n) p n ++ forwardTombs (stateTable d n) p n,
      e.cell = f.cell → e = f :=
  fwd_block_inj stateTable_keys_nodup

theorem PK_repair {d : List DiffRow} {p : List (CellId × String)} {v n : Version}
    (hPKd : PK d) (hpN : (p.map Prod.fst).Nodup)
    (hdv : ∀ e ∈ d, e.version ≠ v) (hvn : v ≠ n) : PK (repairDiffs d p v n) := by
  refine @PK_of_mem_iff _
    ((d.filter (fun e => !decide (e.version = n))
        ++ (forwardAdds p (stateTable d v) v ++ forwardTombs p (stateTable d v) v))
      ++ (forwardAdds (stateTable d n) p n ++ forwardTombs (stateTable d n) p n)) ?_ ?_
  · intro x; simp [repairDiffs]
  · refine PK_append_block ?_ ?_ fwd_block_version repair_block_inj
    · refine PK_append_block (PK_sub (fun x hx => (List.mem_filter.mp hx).1) hPKd) ?_
        fwd_block_version (fwd_block_inj hpN)
      intro e he
      exact hdv e (List.mem_filter.mp he).1
    · intro e he
      rcases List.mem_append.mp he with h | h
      · intro hn
        have := (List.mem_filter.mp h).2
        rw [hn] at this
        simp at this
      · rw [fwd_block_version e h]
        exact hvn

theorem eff_extend_lt {d : List DiffRow} {p : List (CellId × String)} {v w : Version}
    {c : CellId} (hPKd : PK d) (hpN : (p.map Prod.fst).Nodup)
    (hdv : ∀ e ∈ d, e.version ≠ v) (hw : vlt w v) :
    eff (extendDiffs d p v) w c = eff d w c := by
  refine eff_congr (PK_extend hPKd hpN hdv) ?_
  intro e
  constructor
  · rintro ⟨he, hc2, hw2⟩
    rcases mem_extendDiffs.mp he with h | h | h
    · exact ⟨h, hc2, hw2⟩
    · exfalso
      rw [version_of_forwardAdds h] at hw2
      exact vlt_irrefl v (vlt_of_vle_of_vlt hw2 hw)
    · exfalso
      rw [version_of_forwardTombs h] at hw2
      exact vlt_irrefl v (vlt_of_vle_of_vlt hw2 hw)
  · rintro ⟨he, hc2, hw2⟩
    exact ⟨mem_extendDiffs.mpr (Or.inl he), hc2, hw2⟩

theorem eff_repair_lt {d : List DiffRow} {p : List (CellId × String)} {v n w : Version}
    {c : CellId} (hPKd : PK d) (hpN : (p.map Prod.fst).Nodup)
    (hdv : ∀ e ∈ d, e.version ≠ v) (hvn : vlt v n) (hw : vlt w v) :
    eff (repairDiffs d p v n) w c = eff d w c := by
  refine eff_congr (PK_repair hPKd hpN hdv (vlt_ne hvn)) ?_
  intro e
  constructor
  · rintro ⟨he, hc2, hw2⟩
    rcases mem_repairDiffs.mp he with ⟨h, _⟩ | h | h | h | h
    · exact ⟨h, hc2, hw2⟩
    · exfalso
      rw [version_of_forwardAdds h] at hw2
      exact vlt_irrefl v (vlt_of_vle_of_vlt hw2 hw)
    · exfalso
      rw [version_of_forwardTombs h] at hw2
      exact vlt_irrefl v (vlt_of_vle_of_vlt hw2 hw)
    · exfalso
      rw [version_of_forwardAdds h] at hw2
      exact vlt_irrefl n (vlt_of_vle_of_vlt hw2 (vlt_trans hw hvn))
    · exfalso
      rw [version_of_forwardTombs h] at hw2
      exact vlt_irrefl n (vlt_of_vle_of_vlt hw2 (vlt_trans hw hvn))
  · rintro ⟨he, hc2, hw2⟩
    refine ⟨mem_repairDiffs.mpr (Or.inl ⟨he, ?_⟩), hc2, hw2⟩
    intro hn
    rw [hn] at hw2
    exact (not_vle_iff.mpr (vlt_trans hw hvn)) hw2

theorem eff_extend_noemit {d : List DiffRow} {p : List (CellId × String)} {v w : Version}
    {c : CellId} (hPKd : PK d) (hpN : (p.map Prod.fst).Nodup)
    (hdv : ∀ e ∈ d, e.version ≠ v) (hvw : vle v w)
    (hdlt : ∀ e ∈ d, e.cell = c → vle e.version w → vlt e.version v)
    (hnofA : ∀ e ∈ forwardAdds p (stateTable d v) v, e.cell ≠ c)
    (hnofT : ∀ e ∈ forwardTombs p (stateTable d v) v, e.cell ≠ c) :
    eff (extendDiffs d p v) w c = eff d v c := by
  refine eff_congr (PK_extend hPKd hpN hdv) ?_
  intro e
  constructor
  · rintro ⟨he, hc2, hw2⟩
    rcases mem_extendDiffs.mp he with h | h | h
    · exact ⟨h, hc2, vle_of_vlt (hdlt e h hc2 hw2)⟩
    · exact absurd hc2 (hnofA e h)
    · exact absurd hc2 (hnofT e h)
  · rintro ⟨he, hc2, hw2⟩
    exact ⟨mem_extendDiffs.mpr (Or.inl he), hc2, vle_trans hw2 hvw⟩

theorem eff_extend_ge {d : List DiffRow} {p : List (CellId × String)} {v w : Version}
    {c : CellId} (hPKd : PK d) (hpN : (p.map Prod.fst).Nodup)
    (hdv : ∀ e ∈ d, e.version ≠ v) (hvw : vle v w)
    (hdlt : ∀ e ∈ d, e.cell = c → vle e.version w → vlt e.version v) :
    eff (extendDiffs d p v) w c = assocLookup c p := by
  cases hl : assocLookup c p with
  | some x =>
    have hcx : (c, x) ∈ p := assocLookup_mem hl
    by_cases hprev : (c, x) ∈ stateTable d v
    · have hnofA : ∀ e ∈ forwardAdds p (stateTable d v) v, e.cell ≠ c := by
        intro e he hec
        obtain ⟨c1, y, he1, hpy, hny⟩ := mem_forwardAdds.mp he
        subst he1
        have hc1 : c1 = c := hec
        subst hc1
        have hyx : y = x := assocPairs_unique hpN hpy hcx
        rw [hyx] at hny
        exact hny hprev
      have hnofT : ∀ e ∈ forwardTombs p (stateTable d v) v, e.cell ≠ c := by
        intro e he hec
        have h1 := cell_forwardTombs_not_mem_keys he
        rw [hec] at h1
        exact h1 (List.mem_map_of_mem Prod.fst hcx)
      rw [eff_extend_noemit hPKd hpN hdv hvw hdlt hnofA hnofT]
      exact mem_stateTable.mp hprev
    · have hmemA : (⟨v, c, some x⟩ : DiffRow) ∈ forwardAdds p (stateTable d v) v :=
        mem_forwardAdds.mpr ⟨c, x, rfl, hcx, hprev⟩
      have hlat : latestIn (extendDiffs d p v) w c = some ⟨v, c, some x⟩ := by
        refine latestIn_eq_some_of (mem_extendDiffs.mpr (Or.inr (Or.inl hmemA))) rfl hvw ?_ ?_
        · intro e he hec hew
          rcases mem_extendDiffs.mp he with h | h | h
          · exact vle_of_vlt (hdlt e h hec hew)
          · rw [version_of_forwardAdds h]; exact vle_refl v
          · rw [version_of_forwardTombs h]; exact vle_refl v
        · intro e he hec hev
          rcases mem_extendDiffs.mp he with h | h | h
          · exact absurd hev (hdv e h)
          · exact forwardAdds_inj hpN h hmemA hec
          · exfalso
            have h1 := cell_forwardTombs_not_mem_keys h
            rw [hec] at h1
            exact h1 (List.mem_map_of_mem Prod.fst hcx)
      simp [eff, hlat]
  | none =>
    have hk : c ∉ p.map Prod.fst := assocLookup_eq_none_iff.mp hl
    have hnofA : ∀ e ∈ forwardAdds p (stateTable d v) v, e.cell ≠ c := by
      intro e he hec
      have h1 := cell_forwardAdds_mem_keys he
      rw [hec] at h1
      exact hk h1
    by_cases hprevk : c ∈ (stateTable d v).map Prod.fst
    · obtain ⟨y, hy⟩ := assocLookup_isSome_of_key hprevk
      have hcy : (c, y) ∈ stateTable d v := assocLookup_mem hy
      have hmemT : (⟨v, c, none⟩ : DiffRow) ∈ forwardTombs p (stateTable d v) v :=
        mem_forwardTombs.mpr ⟨c, rfl, ⟨y, hcy⟩, hk⟩
      have hlat : latestIn (extendDiffs d p v) w c = some ⟨v, c, none⟩ := by
        refine latestIn_eq_some_of (mem_extendDiffs.mpr (Or.inr (Or.inr hmemT))) rfl hvw ?_ ?_
        · intro e he hec hew
          rcases mem_extendDiffs.mp he with h | h | h
          · exact vle_of_vlt (hdlt e h hec hew)
          · rw [version_of_forwardAdds h]; exact vle_refl v
          · rw [version_of_forwardTombs h]; exact vle_refl v
        · intro e he hec hev
          rcases mem_extendDiffs.mp he with h | h | h
          · exact absurd hev (hdv e h)
          · exact absurd hec (hnofA e h)
          · exact forwardTombs_inj h hmemT hec
      simp [eff, hlat]
    · have hnofT : ∀ e ∈ forwardTombs p (stateTable d v) v, e.cell ≠ c := by
        intro e he hec
        obtain ⟨c1, he1, ⟨y, hy⟩, _⟩ := mem_forwardTombs.mp he
        subst he1
        have hc1 : c1 = c := hec
        subst hc1
        exact hprevk (List.mem_map_of_mem Prod.fst hy)
      rw [eff_extend_noemit hPKd hpN hdv hvw hdlt hnofA hnofT]
      cases he : eff d v c with
      | none => rfl
      | some z => exact absurd (key_mem_stateTable he) hprevk

theorem eff_repair_mid {d : List DiffRow} {p : List (CellId × String)} {v n w : Version}
    {c : CellId} (hPKd : PK d) (hpN : (p.map Prod.fst).Nodup)
    (hdv : ∀ e ∈ d, e.version ≠ v) (hvn : vlt v n) (hwn : vlt w n) :
    eff (repairDiffs d p v n) w c = eff (extendDiffs d p v) w c := by
  refine eff_congr (PK_repair hPKd hpN hdv (vlt_ne hvn)) ?_
  intro e
  constructor
  · rintro ⟨he, hc2, hw2⟩
    rcases mem_repairDiffs.mp he with ⟨h, _⟩ | h | h | h | h
    · exact ⟨mem_extendDiffs.mpr (Or.inl h), hc2, hw2⟩
    · exact ⟨mem_extendDiffs.mpr (Or.inr (Or.inl h)), hc2, hw2⟩
    · exact ⟨mem_extendDiffs.mpr (Or.inr (Or.inr h)), hc2, hw2⟩
    · exfalso
      rw [version_of_forwardAdds h] at hw2
      exact (not_vle_iff.mpr hwn) hw2
    · exfalso
      rw [version_of_forwardTombs h] at hw2
      exact (not_vle_iff.mpr hwn) hw2
  · rintro ⟨he, hc2, hw2⟩
    rcases mem_extendDiffs.mp he with h | h | h
    · refine ⟨mem_repairDiffs.mpr (Or.inl ⟨h, ?_⟩), hc2, hw2⟩
      intro hn
      rw [hn] at hw2
      exact (not_vle_iff.mpr hwn) hw2
    · exact ⟨mem_repairDiffs.mpr (Or.inr (Or.inl h)), hc2, hw2⟩
    · exact ⟨mem_repairDiffs.mpr (Or.inr (Or.inr (Or.inl h))), hc2, hw2⟩

theorem eff_repair_at_n {d : List DiffRow} {p : List (CellId × String)} {v n : Version}
    {c : CellId} (hPKd : PK d) (hpN : (p.map Prod.fst).Nodup)
    (hdv : ∀ e ∈ d, e.version ≠ v) (hvn : vlt v n)
    (hdlt : ∀ e ∈ d, e.cell = c → vlt e.version n → vlt e.version v) :
    eff (repairDiffs d p v n) n c = eff d n c := by
  have hPKr : PK (repairDiffs d p v n) := PK_repair hPKd hpN hdv (vlt_ne hvn)
  by_cases ha : ∃ x, (c, x) ∈ stateTable d n ∧ (c, x) ∉ p
  · obtain ⟨x, hxn, hxp⟩ := ha
    have hmemA : (⟨n, c, some x⟩ : DiffRow) ∈ forwardAdds (stateTable d n) p n :=
      mem_forwardAdds.mpr ⟨c, x, rfl, hxn, hxp⟩
    have hlat : latestIn (repairDiffs d p v n) n c = some ⟨n, c, some x⟩ := by
      refine latestIn_eq_some_of
        (mem_repairDiffs.mpr (Or.inr (Or.inr (Or.inr (Or.inl hmemA))))) rfl (vle_refl n) ?_ ?_
      · intro e he hec hew
        exact hew
      · intro e he hec hev
        rcases mem_repairDiffs.mp he with ⟨h, hn2⟩ | h | h | h | h
        · exact absurd hev hn2
        · exfalso
          have h2 := version_of_forwardAdds h
          rw [h2] at hev
          exact (vlt_ne hvn) hev
        · exfalso
          have h2 := version_of_forwardTombs h
          rw [h2] at hev
          exact (vlt_ne hvn) hev
        · exact forwardAdds_inj stateTable_keys_nodup h hmemA hec
        · exfalso
          have h1 := cell_forwardTombs_not_mem_keys h
          rw [hec] at h1
          exact h1 (List.mem_map_of_mem Prod.fst hxn)
    have h1 : eff (repairDiffs d p v n) n c = some x := by simp [eff, hlat]
    rw [h1, mem_stateTable.mp hxn]
  · by_cases hb : c ∈ p.map Prod.fst ∧ c ∉ (stateTable d n).map Prod.fst
    · obtain ⟨hcp, hcn⟩ := hb
      obtain ⟨y, hy⟩ := assocLookup_isSome_of_key hcp
      have hcy : (c, y) ∈ p := assocLookup_mem hy
      have hmemT : (⟨n, c, none⟩ : DiffRow) ∈ forwardTombs (stateTable d n) p n :=
        mem_forwardTombs.mpr ⟨c, rfl, ⟨y, hcy⟩, hcn⟩
      have hlat : latestIn (repairDiffs d p v n) n c = some ⟨n, c, none⟩ := by
        refine latestIn_eq_some_of
          (mem_repairDiffs.mpr (Or.inr (Or.inr (Or.inr (Or.inr hmemT))))) rfl (vle_refl n) ?_ ?_
        · intro e he hec hew
          exact hew
        · intro e he hec hev
          rcases mem_repairDiffs.mp he with ⟨h, hn2⟩ | h | h | h | h
          · exact absurd hev hn2
          · exfalso
            have h2 := version_of_forwardAdds h
            rw [h2] at hev
            exact (vlt_ne hvn) hev
          · exfalso
            have h2 := version_of_forwardTombs h
            rw [h2] at hev
            exact (vlt_ne hvn) hev
          · exfalso
            have h1 := cell_forwardAdds_mem_keys h
            rw [hec] at h1
            exact hcn h1
          · exact forwardTombs_inj h hmemT hec
      have h1 : eff (repairDiffs d p v n) n c = none := by simp [eff, hlat]
      have h2 : eff d n c = none := by
        cases he : eff d n c with
        | none => rfl
        | some z => exact absurd (key_mem_stateTable he) hcn
      rw [h1, h2]
    · push_neg at ha hb
      have hnorA : ∀ e ∈ forwardAdds (stateTable d n) p n, e.cell ≠ c := by
        intro e he hec
        obtain ⟨c1, x, he1, hxn, hxp⟩ := mem_forwardAdds.mp he
        subst he1
        have hc1 : c1 = c := hec
        subst hc1
        exact hxp (ha x hxn)
      have hnorT : ∀ e ∈ forwardTombs (stateTable d n) p n, e.cell ≠ c := by
        intro e he hec
        obtain ⟨c1, he1, ⟨y, hy⟩, hnk⟩ := mem_forwardTombs.mp he
        subst he1
        have hc1 : c1 = c := hec
        subst hc1
        exact hnk (hb (List.mem_map_of_mem Prod.fst hy))
      have hcongr : eff (repairDiffs d p v n) n c = eff (extendDiffs d p v) v c := by
        refine eff_congr hPKr ?_
        intro e
        constructor
        · rintro ⟨he, hc2, hw2⟩
          rcases mem_repairDiffs.mp he with ⟨h, hn2⟩ | h | h | h | h
          · have hlt : vlt e.version n := by
              rcases vle_iff_vlt_or_eq.mp hw2 with h2 | h2
              · exact h2
              · exact absurd h2 hn2
            exact ⟨mem_extendDiffs.mpr (Or.inl h), hc2, vle_of_vlt (hdlt e h hc2 hlt)⟩
          · refine ⟨mem_extendDiffs.mpr (Or.inr (Or.inl h)), hc2, ?_⟩
            rw [version_of_forwardAdds h]
            exact vle_refl v
          · refine ⟨mem_extendDiffs.mpr (Or.inr (Or.inr h)), hc2, ?_⟩
            rw [version_of_forwardTombs h]
            exact vle_refl v
          · exact absurd hc2 (hnorA e h)
          · exact absurd hc2 (hnorT e h)
        · rintro ⟨he, hc2, hw2⟩
          rcases mem_extendDiffs.mp he with h | h | h
          · have hlt : vlt e.version v := by
              rcases vle_iff_vlt_or_eq.mp hw2 with h2 | h2
              · exact h2
              · exact absurd h2 (hdv e h)
            refine ⟨mem_repairDiffs.mpr (Or.inl ⟨h, ?_⟩), hc2, vle_of_vlt (vlt_trans hlt hvn)⟩
            intro hn2
            rw [hn2] at hlt
            exact (not_vlt_iff.mpr (vle_of_vlt hvn)) hlt
          · refine ⟨mem_repairDiffs.mpr (Or.inr (Or.inl h)), hc2, ?_⟩
            rw [version_of_forwardAdds h]
            exact vle_of_vlt hvn
          · refine ⟨mem_repairDiffs.mpr (Or.inr (Or.inr (Or.inl h))), hc2, ?_⟩
            rw [version_of_forwardTombs h]
            exact vle_of_vlt hvn
      rw [hcongr]
      have hdlt2 : ∀ e ∈ d, e.cell = c → vle e.version v → vlt e.version v := by
        intro e he hec hev
        exact hdlt e he hec (vlt_of_vle_of_vlt hev hvn)
      rw [eff_extend_ge hPKd hpN hdv (vle_refl v) hdlt2]
      by_cases hck : c ∈ (stateTable d n).map Prod.fst
      · obtain ⟨z, hz⟩ := assocLookup_isSome_of_key hck
        have hcz : (c, z) ∈ stateTable d n := assocLookup_mem hz
        rw [mem_stateTable.mp hcz]
        exact assocLookup_eq_some_of_mem hpN (ha z hcz)
      · have h2 : eff d n c = none := by
          cases he : eff d n c with
          | none => rfl
          | some z => exact absurd (key_mem_stateTable he) hck
        rw [h2, assocLookup_eq_none_iff]
        intro hcp
        exact hck (hb hcp)

theorem eff_repair_ge {d : List DiffRow} {p : List (CellId × String)} {v n w : Version}
    {c : CellId} (hPKd : PK d) (hpN : (p.map Prod.fst).Nodup)
    (hdv : ∀ e ∈ d, e.version ≠ v) (hvn : vlt v n) (hnw : vle n w)
    (hdlt : ∀ e ∈ d, e.cell = c → vlt e.version n → vlt e.version v) :
    eff (repairDiffs d p v n) w c = eff d w c := by
  have hPKr : PK (repairDiffs d p v n) := PK_repair hPKd hpN hdv (vlt_ne hvn)
  by_cases hx : ∃ e ∈ d, e.cell = c ∧ vlt n e.version ∧ vle e.version w
  · obtain ⟨e0, he0, hc0, hn0, hw0⟩ := hx
    cases hf : latestIn d w c with
    | none => exact absurd hw0 (latestIn_eq_none_iff.mp hf e0 he0 hc0)
    | some f =>
      obtain ⟨hfmem, hfc, hfw, hfmax⟩ := latestIn_spec hf
      have hnf : vlt n f.version := vlt_of_vlt_of_vle hn0 (hfmax e0 he0 hc0 hw0)
      have hflt : latestIn (repairDiffs d p v n) w c = some f := by
        refine latestIn_eq_some_of ?_ hfc hfw ?_ ?_
        · refine mem_repairDiffs.mpr (Or.inl ⟨hfmem, ?_⟩)
          intro hn2
          rw [hn2] at hnf
          exact vlt_irrefl n hnf
        · intro e he hec hew
          rcases mem_repairDiffs.mp he with ⟨h, _⟩ | h | h | h | h
          · exact hfmax e h hec hew
          · rw [version_of_forwardAdds h]; exact vle_of_vlt (vlt_trans hvn hnf)
          · rw [version_of_forwardTombs h]; exact vle_of_vlt (vlt_trans hvn hnf)
          · rw [version_of_forwardAdds h]; exact vle_of_vlt hnf
          · rw [version_of_forwardTombs h]; exact vle_of_vlt hnf
        · intro e he hec hev
          rcases mem_repairDiffs.mp he with ⟨h, _⟩ | h | h | h | h
          · exact hPKd e h f hfmem (hec.trans hfc.symm) hev
          · exfalso
            have h3 : f.version = v := by rw [← hev, version_of_forwardAdds h]
            rw [h3] at hnf
            exact vlt_irrefl v (vlt_trans hvn hnf)
          · exfalso
            have h3 : f.version = v := by rw [← hev, version_of_forwardTombs h]
            rw [h3] at hnf
            exact vlt_irrefl v (vlt_trans hvn hnf)
          · exfalso
            have h3 : f.version = n := by rw [← hev, version_of_forwardAdds h]
            rw [h3] at hnf
            exact vlt_irrefl n hnf
          · exfalso
            have h3 : f.version = n := by rw [← hev, version_of_forwardTombs h]
            rw [h3] at hnf
            exact vlt_irrefl n hnf
      rw [eff, eff, hflt, hf]
  · push_neg at hx
    have hstep1 : eff d w c = eff d n c := by
      refine eff_congr hPKd ?_
      intro e
      constructor
      · rintro ⟨he, hc2, hw2⟩
        refine ⟨he, hc2, ?_⟩
        rcases vlt_trichotomy n e.version with h2 | h2 | h2
        · exact absurd hw2 (hx e he hc2 h2)
        · rw [← h2]; exact vle_refl n
        · exact vle_of_vlt h2
      · rintro ⟨he, hc2, hw2⟩
        exact ⟨he, hc2, vle_trans hw2 hnw⟩
    have hstep2 : eff (repairDiffs d p v n) w c = eff (repairDiffs d p v n) n c := by
      refine eff_congr hPKr ?_
      intro e
      constructor
      · rintro ⟨he, hc2, hw2⟩
        refine ⟨he, hc2, ?_⟩
        rcases mem_repairDiffs.mp he with ⟨h, _⟩ | h | h | h | h
        · rcases vlt_trichotomy n e.version with h2 | h2 | h2
          · exact absurd hw2 (hx e h hc2 h2)
          · rw [← h2]; exact vle_refl n
          · exact vle_of_vlt h2
        · rw [version_of_forwardAdds h]; exact vle_of_vlt hvn
        · rw [version_of_forwardTombs h]; exact vle_of_vlt hvn
        · rw [version_of_forwardAdds h]; exact vle_refl n
        · rw [version_of_forwardTombs h]; exact vle_refl n
      · rintro ⟨he, hc2, hw2⟩
        exact ⟨he, hc2, vle_trans hw2 hnw⟩
    rw [hstep1, hstep2]
    exact eff_repair_at_n hPKd hpN hdv hvn hdlt

theorem versOk_extend {d : List DiffRow} {p : List (CellId × String)} {v : Version}
    {vl : List Version} (h : VersOk d vl) : VersOk (extendDiffs d p v) (vl ++ [v]) := by
  intro e he
  rcases mem_extendDiffs.mp he with h1 | h1 | h1
  · exact List.mem_append_left _ (h e h1)
  · rw [version_of_forwardAdds h1]
    exact List.mem_append_right _ (List.mem_singleton_self v)
  · rw [version_of_forwardTombs h1]
    exact List.mem_append_right _ (List.mem_singleton_self v)

theorem versOk_repair {d : List DiffRow} {p : List (CellId × String)} {v n : Version}
    {vl : List Version} (h : VersOk d vl) (hn : n ∈ vl) :
    VersOk (repairDiffs d p v n) (vl ++ [v]) := by
  intro e he
  rcases mem_repairDiffs.mp he with ⟨h1, _⟩ | h1 | h1 | h1 | h1
  · exact List.mem_append_left _ (h e h1)
  · rw [version_of_forwardAdds h1]
    exact List.mem_append_right _ (List.mem_singleton_self v)
  · rw [version_of_forwardTombs h1]
    exact List.mem_append_right _ (List.mem_singleton_self v)
  · rw [version_of_forwardAdds h1]
    exact List.mem_append_left _ hn
  · rw [version_of_forwardTombs h1]
    exact List.mem_append_left _ hn

/-- The pools only ever grow by appending fresh entries at the tail, so
previously assigned ids remain valid. -/
def poolsExtend (ps ps2 : Pools) : Prop :=
  (∃ e, ps2.measurement_type = ps.measurement_type ++ e) ∧
  (∃ e, ps2.location = ps.location ++ e) ∧
  (∃ e, ps2.week = ps.week ++ e)

theorem poolsExtend_refl (ps : Pools) : poolsExtend ps ps :=
  ⟨⟨[], by simp⟩, ⟨[], by simp⟩, ⟨[], by simp⟩⟩

theorem poolsExtend_trans {ps1 ps2 ps3 : Pools} (h1 : poolsExtend ps1 ps2)
    (h2 : poolsExtend ps2 ps3) : poolsExtend ps1 ps3 := by
  obtain ⟨⟨a1, ha1⟩, ⟨b1, hb1⟩, ⟨c1, hc1⟩⟩ := h1
  obtain ⟨⟨a2, ha2⟩, ⟨b2, hb2⟩, ⟨c2, hc2⟩⟩ := h2
  exact ⟨⟨a1 ++ a2, by rw [ha2, ha1, List.append_assoc]⟩,
    ⟨b1 ++ b2, by rw [hb2, hb1, List.append_assoc]⟩,
    ⟨c1 ++ c2, by rw [hc2, hc1, List.append_assoc]⟩⟩

theorem poolsExtend_internPools (ps : Pools) (rows : List ParsedRow) :
    poolsExtend ps (internPools ps rows) :=
  ⟨⟨_, rfl⟩, ⟨_, rfl⟩, ⟨_, rfl⟩⟩

theorem rows_strings_in_internPools (ps : Pools) (rows : List ParsedRow) :
    ∀ r ∈ rows, r.measurement_type ∈ (internPools ps rows).measurement_type ∧
      r.location ∈ (internPools ps rows).location ∧
      r.week ∈ (internPools ps rows).week := by
  intro r hr
  exact ⟨mem_internAll_of_mem (List.mem_map_of_mem ParsedRow.measurement_type hr),
    mem_internAll_of_mem (List.mem_map_of_mem ParsedRow.location hr),
    mem_internAll_of_mem (List.mem_map_of_mem ParsedRow.week hr)⟩

theorem internedSnap_keys_nodup {ps : Pools} {rows : List ParsedRow}
    (hk : (rows.map parsedKey).Nodup)
    (hmt : ∀ r ∈ rows, r.measurement_type ∈ ps.measurement_type)
    (hloc : ∀ r ∈ rows, r.location ∈ ps.location)
    (hwk : ∀ r ∈ rows, r.week ∈ ps.week) :
    ((internedSnap ps rows).map Prod.fst).Nodup := by
  have hkeys : (internedSnap ps rows).map Prod.fst = rows.map (fun r => tripleId ps r) := by
    simp [internedSnap, List.map_map, Function.comp]
  rw [hkeys]
  have hrowsN : rows.Nodup := List.Nodup.of_map parsedKey hk
  refine List.Nodup.map_on ?_ hrowsN
  intro r1 h1 r2 h2 he
  simp only [tripleId, Prod.mk.injEq] at he
  have e1 : r1.measurement_type = r2.measurement_type :=
    idOf_inj (hmt r1 h1) (hmt r2 h2) he.1
  have e2 : r1.location = r2.location := idOf_inj (hloc r1 h1) (hloc r2 h2) he.2.1
  have e3 : r1.week = r2.week := idOf_inj (hwk r1 h1) (hwk r2 h2) he.2.2
  have hkey : parsedKey r1 = parsedKey r2 := by
    simp [parsedKey, e1, e2, e3]
  exact List.inj_on_of_nodup_map hk h1 h2 hkey

theorem internedSnap_stable {ps ps2 : Pools} {rows : List ParsedRow}
    (hmt : ∀ r ∈ rows, r.measurement_type ∈ ps.measurement_type)
    (hloc : ∀ r ∈ rows, r.location ∈ ps.location)
    (hwk : ∀ r ∈ rows, r.week ∈ ps.week)
    (hext : poolsExtend ps ps2) :
    internedSnap ps2 rows = internedSnap ps rows := by
  obtain ⟨⟨a, ha⟩, ⟨b, hb⟩, ⟨c, hc⟩⟩ := hext
  refine List.map_congr_left ?_
  intro r hr
  have h1 : idOf ps2.measurement_type r.measurement_type =
      idOf ps.measurement_type r.measurement_type := by
    rw [ha]; exact idOf_append_of_mem (hmt r hr)
  have h2 : idOf ps2.location r.location = idOf ps.location r.location := by
    rw [hb]; exact idOf_append_of_mem (hloc r hr)
  have h3 : idOf ps2.week r.week = idOf ps.week r.week := by
    rw [hc]; exact idOf_append_of_mem (hwk r hr)
  simp [tripleId, h1, h2, h3]

/-- The input of one record_long_raw call: the long-format data frame, the
version stamp, and the single location string of the call. -/
structure IngestItem where
  long_raw_df : List (String × String × String)
  release_date : Nat
  parse_time : Nat
  location : String
deriving DecidableEq, Repr

def IngestItem.version (it : IngestItem) : Version := (it.release_date, it.parse_time)

def IngestItem.rows (it : IngestItem) : List ParsedRow :=
  parsedRowsOf it.long_raw_df it.location

/-- Run record_long_raw on each item in turn, stopping at the first error. -/
def ingestAll (db : DB) : List IngestItem → Except RecordError DB
  | [] => .ok db
  | it :: rest =>
    match record_long_raw db it.long_raw_df it.release_date it.parse_time it.location with
    | .ok db2 => ingestAll db2 rest
    | .error e => .error e

/-- Run record_long_raw on each item in turn, each call rolling back to the
previous state on error. -/
def ingestAllCommitted (db : DB) (items : List IngestItem) : DB :=
  items.foldl
    (fun d it => recordCommitted d it.long_raw_df it.release_date it.parse_time it.location) db

/-- The snapshot recorded at the greatest history version at or before `w`,
read at cell `c`; `none` when no version qualifies or the cell is absent. -/
def histState (hist : List (List (CellId × String) × Version)) (w : Version)
    (c : CellId) : Option String :=
  match hist.foldl (fun acc sv => if vle sv.2 w then some sv.1 else acc) none with
  | some s => assocLookup c s
  | none => none

theorem histState_append_of_not_le {hist : List (List (CellId × String) × Version)}
    {s : List (CellId × String)} {u w : Version} {c : CellId} (h : ¬ vle u w) :
    histState (hist ++ [(s, u)]) w c = histState hist w c := by
  simp [histState, List.foldl_append, h]

theorem histState_append_of_le {hist : List (List (CellId × String) × Version)}
    {s : List (CellId × String)} {u w : Version} {c : CellId} (h : vle u w) :
    histState (hist ++ [(s, u)]) w c = assocLookup c s := by
  simp [histState, List.foldl_append, h]

/-- Structural soundness of a database state: the diffs table primary key,
its foreign key into the version list, and the version list primary key. -/
def GoodDB (db : DB) : Prop :=
  PK db.diffs ∧ VersOk db.diffs db.version_list ∧ db.version_list.Nodup

theorem goodDB_empty : GoodDB emptyDB := by
  refine ⟨?_, ?_, ?_⟩ <;> simp [emptyDB, PK, VersOk]

theorem poolsExtend_mem {ps ps2 : Pools} (h : poolsExtend ps ps2) :
    (∀ s, s ∈ ps.measurement_type → s ∈ ps2.measurement_type) ∧
    (∀ s, s ∈ ps.location → s ∈ ps2.location) ∧
    (∀ s, s ∈ ps.week → s ∈ ps2.week) := by
  obtain ⟨⟨a, ha⟩, ⟨b, hb⟩, ⟨c, hc⟩⟩ := h
  refine ⟨?_, ?_, ?_⟩ <;> intro s hs
  · rw [ha]; exact List.mem_append_left _ hs
  · rw [hb]; exact List.mem_append_left _ hs
  · rw [hc]; exact List.mem_append_left _ hs

theorem record_step_inorder {db : DB} {hist : List (List (CellId × String) × Version)}
    {it : IngestItem}
    (hG : GoodDB db)
    (hEff : ∀ w c, eff db.diffs w c = histState hist w c)
    (hVL : db.version_list = hist.map Prod.snd)
    (hk : ((it.rows).map parsedKey).Nodup)
    (hgt : ∀ u ∈ hist.map Prod.snd, vlt u it.version) :
    ∃ db1, record_long_raw db it.long_raw_df it.release_date it.parse_time it.location
        = .ok db1 ∧
      GoodDB db1 ∧
      db1.pools = internPools db.pools it.rows ∧
      db1.version_list = hist.map Prod.snd ++ [it.version] ∧
      ∀ w c, eff db1.diffs w c =
        histState (hist ++ [(internedSnap (internPools db.pools it.rows) it.rows,
          it.version)]) w c := by
  have hfresh : (it.release_date, it.parse_time) ∉ db.version_list := by
    rw [hVL]
    intro hmem
    exact vlt_irrefl it.version (hgt _ hmem)
  have hnone : ledgerNext db.version_list (it.release_date, it.parse_time) = none := by
    rw [ledgerNext_eq_none_iff]
    intro u hu
    rw [hVL] at hu
    exact not_vlt_iff.mpr (vle_of_vlt (hgt u hu))
  have hok := record_ok_eq hk hfresh
  have hdiffs : (recordResult db it.long_raw_df it.release_date it.parse_time
      it.location).diffs =
      extendDiffs db.diffs
        (internedSnap (internPools db.pools it.rows) it.rows)
        (it.release_date, it.parse_time) := by
    rw [recordResult_diffs, hnone]
    rfl
  have hdv : ∀ e ∈ db.diffs, e.version ≠ (it.release_date, it.parse_time) := by
    intro e he hv
    exact hfresh (hv ▸ hG.2.1 e he)
  have hdltg : ∀ e ∈ db.diffs, vlt e.version (it.release_date, it.parse_time) := by
    intro e he
    have := hG.2.1 e he
    rw [hVL] at this
    exact hgt _ this
  have hstr := rows_strings_in_internPools db.pools it.rows
  have hpN : ((internedSnap (internPools db.pools it.rows) it.rows).map Prod.fst).Nodup :=
    internedSnap_keys_nodup hk (fun r hr => (hstr r hr).1) (fun r hr => (hstr r hr).2.1)
      (fun r hr => (hstr r hr).2.2)
  refine ⟨recordResult db it.long_raw_df it.release_date it.parse_time it.location,
    hok, ⟨?_, ?_, ?_⟩, recordResult_pools, ?_, ?_⟩
  · rw [hdiffs]
    exact PK_extend hG.1 hpN hdv
  · rw [hdiffs, recordResult_versions]
    exact versOk_extend hG.2.1
  · rw [recordResult_versions, List.nodup_append]
    refine ⟨hG.2.2, List.nodup_singleton _, ?_⟩
    intro a ha hb
    rw [List.mem_singleton] at hb
    subst hb
    exact hfresh ha
  · rw [recordResult_versions, hVL]
    rfl
  · intro w c
    rw [hdiffs]
    by_cases hvw : vle (it.release_date, it.parse_time) w
    · rw [eff_extend_ge hG.1 hpN hdv hvw (fun e he _ _ => hdltg e he)]
      have hvw2 : vle it.version w := hvw
      rw [histState_append_of_le hvw2]
    · have hw : vlt w (it.release_date, it.parse_time) := not_vle_iff.mp hvw
      have hvw2 : ¬ vle it.version w := hvw
      rw [eff_extend_lt hG.1 hpN hdv hw, hEff w c, histState_append_of_not_le hvw2]

theorem ingest_inorder (items : List IngestItem) :
    ∀ (db : DB) (hist : List (List (CellId × String) × Version)),
      GoodDB db →
      (∀ w c, eff db.diffs w c = histState hist w c) →
      db.version_list = hist.map Prod.snd →
      ((hist.map Prod.snd ++ items.map IngestItem.version).Pairwise vlt) →
      (∀ it ∈ items, ((it.rows).map parsedKey).Nodup) →
      ∃ db2, ingestAll db items = .ok db2 ∧
        GoodDB db2 ∧ poolsExtend db.pools db2.pools ∧
        db2.version_list = hist.map Prod.snd ++ items.map IngestItem.version ∧
        (∀ it ∈ items, ∀ r ∈ it.rows,
          r.measurement_type ∈ db2.pools.measurement_type ∧
          r.location ∈ db2.pools.location ∧ r.week ∈ db2.pools.week) ∧
        (∀ w c, eff db2.diffs w c =
          histState (hist ++ items.map
            (fun it2 => (internedSnap db2.pools it2.rows, it2.version))) w c) := by
  induction items with
  | nil =>
    intro db hist hG hEff hVL hsort hkeys
    refine ⟨db, rfl, hG, poolsExtend_refl _, by simp [hVL], by simp, ?_⟩
    intro w c
    simpa using hEff w c
  | cons it rest ih =>
    intro db hist hG hEff hVL hsort hkeys
    have hmemhead : it.version ∈ (it :: rest).map IngestItem.version := by simp
    have hcross : ∀ u ∈ hist.map Prod.snd, vlt u it.version := fun u hu =>
      (List.pairwise_append.mp hsort).2.2 u hu it.version hmemhead
    obtain ⟨db1, hok1, hG1, hpools1, hvl1, heff1⟩ :=
      record_step_inorder hG hEff hVL (hkeys it (List.mem_cons_self _ _)) hcross
    have heff1b : ∀ w c, eff db1.diffs w c =
        histState (hist ++ [(internedSnap db1.pools it.rows, it.version)]) w c := by
      rw [hpools1]
      exact heff1
    have hvl1b : db1.version_list =
        (hist ++ [(internedSnap db1.pools it.rows, it.version)]).map Prod.snd := by
      rw [hvl1]
      simp
    have hsort1 : ((hist ++ [(internedSnap db1.pools it.rows, it.version)]).map Prod.snd
        ++ rest.map IngestItem.version).Pairwise vlt := by
      simpa [List.append_assoc] using hsort
    obtain ⟨db2, hchain, hG2, hpe2, hvl2, hstrs2, heff2⟩ :=
      ih db1 (hist ++ [(internedSnap db1.pools it.rows, it.version)]) hG1 heff1b hvl1b
        hsort1 (fun it2 h2 => hkeys it2 (List.mem_cons_of_mem it h2))
    have hpe1 : poolsExtend db.pools db1.pools := by
      rw [hpools1]
      exact poolsExtend_internPools db.pools it.rows
    have hstr1 : ∀ r ∈ it.rows, r.measurement_type ∈ db1.pools.measurement_type ∧
        r.location ∈ db1.pools.location ∧ r.week ∈ db1.pools.week := by
      rw [hpools1]
      exact rows_strings_in_internPools _ _
    have hstable : internedSnap db2.pools it.rows = internedSnap db1.pools it.rows :=
      internedSnap_stable (fun r hr => (hstr1 r hr).1) (fun r hr => (hstr1 r hr).2.1)
        (fun r hr => (hstr1 r hr).2.2) hpe2
    refine ⟨db2, ?_, hG2, poolsExtend_trans hpe1 hpe2, ?_, ?_, ?_⟩
    · have hstep : ingestAll db (it :: rest) = ingestAll db1 rest := by
        simp [ingestAll, hok1]
      rw [hstep, hchain]
    · rw [hvl2]
      simp [List.append_assoc]
    · intro it2 h2 r hr
      rcases List.mem_cons.mp h2 with he | hm
      · subst he
        obtain ⟨hpm1, hpm2, hpm3⟩ := poolsExtend_mem hpe2
        obtain ⟨hs1, hs2, hs3⟩ := hstr1 r hr
        exact ⟨hpm1 _ hs1, hpm2 _ hs2, hpm3 _ hs3⟩
      · exact hstrs2 it2 hm r hr
    · intro w c
      have hEq : hist ++ (it :: rest).map
          (fun it2 => (internedSnap db2.pools it2.rows, it2.version)) =
          (hist ++ [(internedSnap db1.pools it.rows, it.version)]) ++ rest.map
            (fun it2 => (internedSnap db2.pools it2.rows, it2.version)) := by
        simp [hstable, List.append_assoc]
      rw [hEq]
      exact heff2 w c

theorem ingestAll_append {l1 l2 : List IngestItem} :
    ∀ {db db2 : DB}, ingestAll db l1 = .ok db2 →
      ingestAll db (l1 ++ l2) = ingestAll db2 l2 := by
  induction l1 with
  | nil =>
    intro db db2 h
    simp only [ingestAll] at h
    cases h
    rfl
  | cons it rest ih =>
    intro db db2 h
    simp only [ingestAll, List.cons_append] at h ⊢
    cases hr : record_long_raw db it.long_raw_df it.release_date it.parse_time
        it.location with
    | ok d1 =>
      rw [hr] at h
      exact ih h
    | error e =>
      rw [hr] at h
      simp at h

/-- C1: round-trip reconstruction.  Ingesting any sequence of snapshots in
strictly increasing version order from the empty store succeeds, and for
every version `w` and every cell, the reconstructed state (the `new_value`
of the diff row with the greatest version at or before `w`, the cell being
absent when that row is a NULL tombstone or no row exists) is exactly the
cell's value in the snapshot recorded at the greatest ingested version at
or before `w` (absent when no version qualifies). -/
theorem C1_roundtrip (items : List IngestItem)
    (hsort : (items.map IngestItem.version).Pairwise vlt)
    (hkeys : ∀ it ∈ items, ((it.rows).map parsedKey).Nodup) :
    ∃ db2, ingestAll emptyDB items = .ok db2 ∧
      ∀ w c, eff db2.diffs w c =
        histState (items.map (fun it => (internedSnap db2.pools it.rows, it.version)))
          w c := by
  obtain ⟨db2, hchain, _, _, _, _, heff⟩ :=
    ingest_inorder items emptyDB [] goodDB_empty
      (fun w c => rfl) rfl (by simpa using hsort) hkeys
  refine ⟨db2, hchain, ?_⟩
  intro w c
  simpa using heff w c

/-- C2: out-of-order insertion preserves future reconstruction.  Ingest
snapshots at versions `V1 < V3` from the empty store, then ingest a third
snapshot at `V2` with `V1 < V2 < V3` out of order.  All three calls
succeed, and reconstructing as of any version at or after `V3` still
yields exactly the snapshot originally recorded at `V3`: the next-version
chain repair does not alter the observable state at or after the repaired
version. -/
theorem C2_out_of_order (it1 it3 it2 : IngestItem)
    (h12 : vlt it1.version it2.version) (h23 : vlt it2.version it3.version)
    (hk1 : ((it1.rows).map parsedKey).Nodup)
    (hk2 : ((it2.rows).map parsedKey).Nodup)
    (hk3 : ((it3.rows).map parsedKey).Nodup) :
    ∃ db3, ingestAll emptyDB [it1, it3, it2] = .ok db3 ∧
      ∀ w, vle it3.version w → ∀ c,
        eff db3.diffs w c = assocLookup c (internedSnap db3.pools it3.rows) := by
  have h13 : vlt it1.version it3.version := vlt_trans h12 h23
  have hsortA : (([] : List (List (CellId × String) × Version)).map Prod.snd ++
      [it1, it3].map IngestItem.version).Pairwise vlt := by
    simp [h13]
  obtain ⟨dbA, hchainA, hGA, _, hvlA, hstrsA, heffA⟩ :=
    ingest_inorder [it1, it3] emptyDB [] goodDB_empty (fun w c => rfl) rfl hsortA
      (by intro it h; rcases List.mem_cons.mp h with he | h2
          · subst he; exact hk1
          · rcases List.mem_cons.mp h2 with he | h3
            · subst he; exact hk3
            · simp at h3)
  have hvlA2 : dbA.version_list = [it1.version, it3.version] := by
    simpa using hvlA
  have hfresh2 : (it2.release_date, it2.parse_time) ∉ dbA.version_list := by
    rw [hvlA2]
    intro hmem
    rcases List.mem_cons.mp hmem with he | hm
    · have : vlt it1.version it2.version := h12
      rw [← he] at this
      exact vlt_irrefl _ this
    · rw [List.mem_singleton] at hm
      have : vlt it2.version it3.version := h23
      rw [← hm] at this
      exact vlt_irrefl _ this
  have hnext : ledgerNext dbA.version_list (it2.release_date, it2.parse_time) =
      some it3.version := by
    rw [hvlA2]
    refine ledgerNext_eq_some_of (by simp) h23 ?_
    intro u hu h2u
    rcases List.mem_cons.mp hu with he | hm
    · subst he
      exact absurd (vlt_trans h2u h12) (vlt_irrefl _)
    · rw [List.mem_singleton] at hm
      subst hm
      exact vle_refl _
  have hok2 := record_ok_eq hk2 hfresh2
  have hdiffsB : (recordResult dbA it2.long_raw_df it2.release_date it2.parse_time
      it2.location).diffs =
      repairDiffs dbA.diffs
        (internedSnap (internPools dbA.pools it2.rows) it2.rows)
        (it2.release_date, it2.parse_time) it3.version := by
    rw [recordResult_diffs, hnext]
    rfl
  have hstr2 := rows_strings_in_internPools dbA.pools it2.rows
  have hpN2 : ((internedSnap (internPools dbA.pools it2.rows) it2.rows).map
      Prod.fst).Nodup :=
    internedSnap_keys_nodup hk2 (fun r hr => (hstr2 r hr).1)
      (fun r hr => (hstr2 r hr).2.1) (fun r hr => (hstr2 r hr).2.2)
  have hdv2 : ∀ e ∈ dbA.diffs, e.version ≠ (it2.release_date, it2.parse_time) := by
    intro e he hv
    exact hfresh2 (hv ▸ hGA.2.1 e he)
  have hdlt2 : ∀ e ∈ dbA.diffs, vlt e.version it3.version →
      vlt e.version (it2.release_date, it2.parse_time) := by
    intro e he hlt
    have hv := hGA.2.1 e he
    rw [hvlA2] at hv
    rcases List.mem_cons.mp hv with he2 | hm
    · rw [he2]; exact h12
    · rw [List.mem_singleton] at hm
      rw [hm] at hlt
      exact absurd hlt (vlt_irrefl _)
  have hchain3 : ingestAll emptyDB [it1, it3, it2] =
      .ok (recordResult dbA it2.long_raw_df it2.release_date it2.parse_time
        it2.location) := by
    have h1 : ([it1, it3, it2] : List IngestItem) = [it1, it3] ++ [it2] := rfl
    rw [h1, ingestAll_append hchainA]
    simp [ingestAll, hok2]
  refine ⟨_, hchain3, ?_⟩
  intro w hw c
  rw [hdiffsB]
  rw [eff_repair_ge hGA.1 hpN2 hdv2 h23 hw (fun e he _ hlt => hdlt2 e he hlt)]
  have hstep : eff dbA.diffs w c = eff dbA.diffs it3.version c := by
    refine eff_congr hGA.1 ?_
    intro e
    constructor
    · rintro ⟨he, hc2, hw2⟩
      refine ⟨he, hc2, ?_⟩
      have hv := hGA.2.1 e he
      rw [hvlA2] at hv
      rcases List.mem_cons.mp hv with he2 | hm
      · rw [he2]; exact vle_of_vlt h13
      · rw [List.mem_singleton] at hm
        rw [hm]
        exact vle_refl _
    · rintro ⟨he, hc2, hw2⟩
      exact ⟨he, hc2, vle_trans hw2 hw⟩
  rw [hstep]
  have heffA3 := heffA it3.version c
  have hlast : histState (([] : List (List (CellId × String) × Version)) ++
      [it1, it3].map (fun it => (internedSnap dbA.pools it.rows, it.version)))
        it3.version c =
      assocLookup c (internedSnap dbA.pools it3.rows) := by
    have h2 : ([] : List (List (CellId × String) × Version)) ++
        [it1, it3].map (fun it => (internedSnap dbA.pools it.rows, it.version)) =
        [(internedSnap dbA.pools it1.rows, it1.version)] ++
          [(internedSnap dbA.pools it3.rows, it3.version)] := by
      simp
    rw [h2, histState_append_of_le (vle_refl it3.version)]
  rw [heffA3, hlast]
  have hstr3 : ∀ r ∈ it3.rows, r.measurement_type ∈ dbA.pools.measurement_type ∧
      r.location ∈ dbA.pools.location ∧ r.week ∈ dbA.pools.week := by
    intro r hr
    exact hstrsA it3 (by simp) r hr
  have hpeB : poolsExtend dbA.pools (recordResult dbA it2.long_raw_df it2.release_date
      it2.parse_time it2.location).pools := by
    rw [recordResult_pools]
    exact poolsExtend_internPools dbA.pools it2.rows
  rw [internedSnap_stable (fun r hr => (hstr3 r hr).1) (fun r hr => (hstr3 r hr).2.1)
    (fun r hr => (hstr3 r hr).2.2) hpeB]

/-- Effective value of cell `c` using only the diff rows strictly before
version `u`: the value against which a diff row at `u` must differ for the
chain to be non-redundant. -/
def effBefore (l : List DiffRow) (u : Version) (c : CellId) : Option String :=
  eff (l.filter (fun e => decide (vlt e.version u))) u c

/-- The no-redundant-diff invariant: every diff row changes the cell
relative to the state just before its own version.  In particular a NULL
tombstone is only ever written for a cell that existed, and a value is
never re-affirmed. -/
def NoRedundant (l : List DiffRow) : Prop :=
  ∀ e ∈ l, e.new_value ≠ effBefore l e.version e.cell

theorem PK_filter {l : List DiffRow} {q : DiffRow → Bool} (h : PK l) :
    PK (l.filter q) :=
  PK_sub (fun x hx => (List.mem_filter.mp hx).1) h

theorem effBefore_extend_lt {d : List DiffRow} {p : List (CellId × String)}
    {v u : Version} {c : CellId} (hPKd : PK d) (hpN : (p.map Prod.fst).Nodup)
    (hdv : ∀ e ∈ d, e.version ≠ v) (hu : vlt u v) :
    effBefore (extendDiffs d p v) u c = effBefore d u c := by
  refine eff_congr (PK_filter (PK_extend hPKd hpN hdv)) ?_
  intro e
  simp only [List.mem_filter, decide_eq_true_eq]
  constructor
  · rintro ⟨⟨he, hlt⟩, hc, hle⟩
    rcases mem_extendDiffs.mp he with h | h | h
    · exact ⟨⟨h, hlt⟩, hc, hle⟩
    · exfalso
      rw [version_of_forwardAdds h] at hlt
      exact vlt_irrefl v (vlt_trans hlt hu)
    · exfalso
      rw [version_of_forwardTombs h] at hlt
      exact vlt_irrefl v (vlt_trans hlt hu)
  · rintro ⟨⟨he, hlt⟩, hc, hle⟩
    exact ⟨⟨mem_extendDiffs.mpr (Or.inl he), hlt⟩, hc, hle⟩

theorem effBefore_extend_at_v {d : List DiffRow} {p : List (CellId × String)}
    {v : Version} {c : CellId} (hPKd : PK d) (hpN : (p.map Prod.fst).Nodup)
    (hdv : ∀ e ∈ d, e.version ≠ v) :
    effBefore (extendDiffs d p v) v c = eff d v c := by
  refine eff_congr (PK_filter (PK_extend hPKd hpN hdv)) ?_
  intro e
  simp only [List.mem_filter, decide_eq_true_eq]
  constructor
  · rintro ⟨⟨he, hlt⟩, hc, hle⟩
    rcases mem_extendDiffs.mp he with h | h | h
    · exact ⟨h, hc, hle⟩
    · exfalso
      rw [version_of_forwardAdds h] at hlt
      exact vlt_irrefl v hlt
    · exfalso
      rw [version_of_forwardTombs h] at hlt
      exact vlt_irrefl v hlt
  · rintro ⟨he, hc, hle⟩
    have hlt : vlt e.version v := by
      rcases vle_iff_vlt_or_eq.mp hle with h2 | h2
      · exact h2
      · exact absurd h2 (hdv e he)
    exact ⟨⟨mem_extendDiffs.mpr (Or.inl he), hlt⟩, hc, hle⟩

theorem noRedundant_extend {d : List DiffRow} {p : List (CellId × String)} {v : Version}
    (hPKd : PK d) (hpN : (p.map Prod.fst).Nodup)
    (hdltall : ∀ e ∈ d, vlt e.version v)
    (hNR : NoRedundant d) : NoRedundant (extendDiffs d p v) := by
  have hdv : ∀ e ∈ d, e.version ≠ v := fun e he => vlt_ne (hdltall e he)
  intro e he
  rcases mem_extendDiffs.mp he with h | h | h
  · rw [effBefore_extend_lt hPKd hpN hdv (hdltall e h)]
    exact hNR e h
  · obtain ⟨c, x, he2, hp, hnp⟩ := mem_forwardAdds.mp h
    subst he2
    show some x ≠ effBefore (extendDiffs d p v) v c
    rw [effBefore_extend_at_v hPKd hpN hdv]
    intro hcontra
    exact hnp (mem_stateTable.mpr hcontra.symm)
  · obtain ⟨c, he2, ⟨y, hy⟩, hnp⟩ := mem_forwardTombs.mp h
    subst he2
    show (none : Option String) ≠ effBefore (extendDiffs d p v) v c
    rw [effBefore_extend_at_v hPKd hpN hdv, mem_stateTable.mp hy]
    simp

theorem effBefore_repair_lt {d : List DiffRow} {p : List (CellId × String)}
    {v n u : Version} {c : CellId} (hPKd : PK d) (hpN : (p.map Prod.fst).Nodup)
    (hdv : ∀ e ∈ d, e.version ≠ v) (hvn : vlt v n) (hu : vlt u v) :
    effBefore (repairDiffs d p v n) u c = effBefore d u c := by
  refine eff_congr (PK_filter (PK_repair hPKd hpN hdv (vlt_ne hvn))) ?_
  intro e
  simp only [List.mem_filter, decide_eq_true_eq]
  constructor
  · rintro ⟨⟨he, hlt⟩, hc, hle⟩
    rcases mem_repairDiffs.mp he with ⟨h, _⟩ | h | h | h | h
    · exact ⟨⟨h, hlt⟩, hc, hle⟩
    · exfalso
      rw [version_of_forwardAdds h] at hlt
      exact vlt_irrefl v (vlt_trans hlt hu)
    · exfalso
      rw [version_of_forwardTombs h] at hlt
      exact vlt_irrefl v (vlt_trans hlt hu)
    · exfalso
      rw [version_of_forwardAdds h] at hlt
      exact vlt_irrefl n (vlt_trans hlt (vlt_trans hu hvn))
    · exfalso
      rw [version_of_forwardTombs h] at hlt
      exact vlt_irrefl n (vlt_trans hlt (vlt_trans hu hvn))
  · rintro ⟨⟨he, hlt⟩, hc, hle⟩
    refine ⟨⟨mem_repairDiffs.mpr (Or.inl ⟨he, ?_⟩), hlt⟩, hc, hle⟩
    intro hn2
    rw [hn2] at hlt
    exact vlt_irrefl n (vlt_trans hlt (vlt_trans hu hvn))

theorem effBefore_repair_at_v {d : List DiffRow} {p : List (CellId × String)}
    {v n : Version} {c : CellId} (hPKd : PK d) (hpN : (p.map Prod.fst).Nodup)
    (hdv : ∀ e ∈ d, e.version ≠ v) (hvn : vlt v n) :
    effBefore (repairDiffs d p v n) v c = eff d v c := by
  refine eff_congr (PK_filter (PK_repair hPKd hpN hdv (vlt_ne hvn))) ?_
  intro e
  simp only [List.mem_filter, decide_eq_true_eq]
  constructor
  · rintro ⟨⟨he, hlt⟩, hc, hle⟩
    rcases mem_repairDiffs.mp he with ⟨h, _⟩ | h | h | h | h
    · exact ⟨h, hc, hle⟩
    · exfalso
      rw [version_of_forwardAdds h] at hlt
      exact vlt_irrefl v hlt
    · exfalso
      rw [version_of_forwardTombs h] at hlt
      exact vlt_irrefl v hlt
    · exfalso
      rw [version_of_forwardAdds h] at hlt
      exact vlt_irrefl v (vlt_trans hvn hlt)
    · exfalso
      rw [version_of_forwardTombs h] at hlt
      exact vlt_irrefl v (vlt_trans hvn hlt)
  · rintro ⟨he, hc, hle⟩
    have hlt : vlt e.version v := by
      rcases vle_iff_vlt_or_eq.mp hle with h2 | h2
      · exact h2
      · exact absurd h2 (hdv e he)
    refine ⟨⟨mem_repairDiffs.mpr (Or.inl ⟨he, ?_⟩), hlt⟩, hc, hle⟩
    intro hn2
    rw [hn2] at hlt
    exact vlt_irrefl v (vlt_trans hvn hlt)

theorem effBefore_repair_at_n {d : List DiffRow} {p : List (CellId × String)}
    {v n : Version} {c : CellId} (hPKd : PK d) (hpN : (p.map Prod.fst).Nodup)
    (hvn : vlt v n)
    (hgap : ∀ e ∈ d, vlt e.version n → vlt e.version v) :
    effBefore (repairDiffs d p v n) n c = assocLookup c p := by
  have hdv : ∀ e ∈ d, e.version ≠ v := by
    intro e he hv
    have h2 := hgap e he (hv ▸ hvn)
    rw [hv] at h2
    exact vlt_irrefl v h2
  have h1 : effBefore (repairDiffs d p v n) n c = eff (extendDiffs d p v) v c := by
    refine eff_congr (PK_filter (PK_repair hPKd hpN hdv (vlt_ne hvn))) ?_
    intro e
    simp only [List.mem_filter, decide_eq_true_eq]
    constructor
    · rintro ⟨⟨he, hlt⟩, hc, hle⟩
      rcases mem_repairDiffs.mp he with ⟨h, _⟩ | h | h | h | h
      · exact ⟨mem_extendDiffs.mpr (Or.inl h), hc, vle_of_vlt (hgap e h hlt)⟩
      · refine ⟨mem_extendDiffs.mpr (Or.inr (Or.inl h)), hc, ?_⟩
        rw [version_of_forwardAdds h]
        exact vle_refl v
      · refine ⟨mem_extendDiffs.mpr (Or.inr (Or.inr h)), hc, ?_⟩
        rw [version_of_forwardTombs h]
        exact vle_refl v
      · exfalso
        rw [version_of_forwardAdds h] at hlt
        exact vlt_irrefl n hlt
      · exfalso
        rw [version_of_forwardTombs h] at hlt
        exact vlt_irrefl n hlt
    · rintro ⟨he, hc, hle⟩
      rcases mem_extendDiffs.mp he with h | h | h
      · have hlt : vlt e.version v := by
          rcases vle_iff_vlt_or_eq.mp hle with h2 | h2
          · exact h2
          · exact absurd h2 (hdv e h)
        refine ⟨⟨mem_repairDiffs.mpr (Or.inl ⟨h, ?_⟩), vlt_trans hlt hvn⟩, hc,
          vle_of_vlt (vlt_trans hlt hvn)⟩
        intro hn2
        rw [hn2] at hlt
        exact vlt_irrefl v (vlt_trans hvn hlt)
      · refine ⟨⟨mem_repairDiffs.mpr (Or.inr (Or.inl h)), ?_⟩, hc, ?_⟩
        · rw [version_of_forwardAdds h]; exact hvn
        · rw [version_of_forwardAdds h]; exact vle_of_vlt hvn
      · refine ⟨⟨mem_repairDiffs.mpr (Or.inr (Or.inr (Or.inl h))), ?_⟩, hc, ?_⟩
        · rw [version_of_forwardTombs h]; exact hvn
        · rw [version_of_forwardTombs h]; exact vle_of_vlt hvn
  rw [h1]
  refine eff_extend_ge hPKd hpN hdv (vle_refl v) ?_
  intro e he _ hle
  rcases vle_iff_vlt_or_eq.mp hle with h2 | h2
  · exact h2
  · exact absurd h2 (hdv e he)

theorem effBefore_repair_gt {d : List DiffRow} {p : List (CellId × String)}
    {v n u : Version} {c : CellId} (hPKd : PK d) (hpN : (p.map Prod.fst).Nodup)
    (hvn : vlt v n) (hnu : vlt n u)
    (hgap : ∀ e ∈ d, vlt e.version n → vlt e.version v) :
    effBefore (repairDiffs d p v n) u c = effBefore d u c := by
  have hdv : ∀ e ∈ d, e.version ≠ v := by
    intro e he hv
    have h2 := hgap e he (hv ▸ hvn)
    rw [hv] at h2
    exact vlt_irrefl v h2
  have hPKr : PK (repairDiffs d p v n) := PK_repair hPKd hpN hdv (vlt_ne hvn)
  by_cases hx : ∃ f ∈ d, f.cell = c ∧ vlt n f.version ∧ vlt f.version u
  · obtain ⟨f0, hf0, hc0, hn0, hu0⟩ := hx
    cases hf : latestIn (d.filter (fun e => decide (vlt e.version u))) u c with
    | none =>
      exfalso
      refine latestIn_eq_none_iff.mp hf f0 ?_ hc0 (vle_of_vlt hu0)
      rw [List.mem_filter]
      exact ⟨hf0, by simp [hu0]⟩
    | some f =>
      obtain ⟨hfmem, hfc, hfw, hfmax⟩ := latestIn_spec hf
      have hfd : f ∈ d ∧ vlt f.version u := by
        rw [List.mem_filter] at hfmem
        exact ⟨hfmem.1, by simpa using hfmem.2⟩
      have hnf : vlt n f.version := by
        refine vlt_of_vlt_of_vle hn0 (hfmax f0 ?_ hc0 (vle_of_vlt hu0))
        rw [List.mem_filter]
        exact ⟨hf0, by simp [hu0]⟩
      have hflt : latestIn ((repairDiffs d p v n).filter
          (fun e => decide (vlt e.version u))) u c = some f := by
        refine latestIn_eq_some_of ?_ hfc hfw ?_ ?_
        · rw [List.mem_filter]
          refine ⟨mem_repairDiffs.mpr (Or.inl ⟨hfd.1, ?_⟩), by simp [hfd.2]⟩
          intro hn2
          rw [hn2] at hnf
          exact vlt_irrefl n hnf
        · intro e he hec hew
          rw [List.mem_filter] at he
          have helt : vlt e.version u := by simpa using he.2
          rcases mem_repairDiffs.mp he.1 with ⟨h, _⟩ | h | h | h | h
          · refine hfmax e ?_ hec hew
            rw [List.mem_filter]
            exact ⟨h, by simp [helt]⟩
          · rw [version_of_forwardAdds h]; exact vle_of_vlt (vlt_trans hvn hnf)
          · rw [version_of_forwardTombs h]; exact vle_of_vlt (vlt_trans hvn hnf)
          · rw [version_of_forwardAdds h]; exact vle_of_vlt hnf
          · rw [version_of_forwardTombs h]; exact vle_of_vlt hnf
        · intro e he hec hev
          rw [List.mem_filter] at he
          rcases mem_repairDiffs.mp he.1 with ⟨h, _⟩ | h | h | h | h
          · exact hPKd e h f hfd.1 (hec.trans hfc.symm) hev
          · exfalso
            have h3 : f.version = v := by rw [← hev, version_of_forwardAdds h]
            rw [h3] at hnf
            exact vlt_irrefl v (vlt_trans hvn hnf)
          · exfalso
            have h3 : f.version = v := by rw [← hev, version_of_forwardTombs h]
            rw [h3] at hnf
            exact vlt_irrefl v (vlt_trans hvn hnf)
          · exfalso
            have h3 : f.version = n := by rw [← hev, version_of_forwardAdds h]
            rw [h3] at hnf
            exact vlt_irrefl n hnf
          · exfalso
            have h3 : f.version = n := by rw [← hev, version_of_forwardTombs h]
            rw [h3] at hnf
            exact vlt_irrefl n hnf
      rw [effBefore, effBefore, eff, eff, hflt, hf]
  · push_neg at hx
    have hstep1 : effBefore d u c = eff d n c := by
      refine eff_congr (PK_filter hPKd) ?_
      intro e
      simp only [List.mem_filter, decide_eq_true_eq]
      constructor
      · rintro ⟨⟨he, hlt⟩, hc2, hle⟩
        refine ⟨he, hc2, ?_⟩
        rcases vlt_trichotomy n e.version with h2 | h2 | h2
        · exact absurd hlt (hx e he hc2 h2)
        · rw [← h2]; exact vle_refl n
        · exact vle_of_vlt h2
      · rintro ⟨he, hc2, hle⟩
        have hlt : vlt e.version u := vlt_of_vle_of_vlt hle hnu
        exact ⟨⟨he, hlt⟩, hc2, vle_of_vlt hlt⟩
    have hstep2 : effBefore (repairDiffs d p v n) u c =
        eff (repairDiffs d p v n) n c := by
      refine eff_congr (PK_filter hPKr) ?_
      intro e
      simp only [List.mem_filter, decide_eq_true_eq]
      constructor
      · rintro ⟨⟨he, hlt⟩, hc2, hle⟩
        refine ⟨he, hc2, ?_⟩
        rcases mem_repairDiffs.mp he with ⟨h, _⟩ | h | h | h | h
        · rcases vlt_trichotomy n e.version with h2 | h2 | h2
          · exact absurd hlt (hx e h hc2 h2)
          · rw [← h2]; exact vle_refl n
          · exact vle_of_vlt h2
        · rw [version_of_forwardAdds h]; exact vle_of_vlt hvn
        · rw [version_of_forwardTombs h]; exact vle_of_vlt hvn
        · rw [version_of_forwardAdds h]; exact vle_refl n
        · rw [version_of_forwardTombs h]; exact vle_refl n
      · rintro ⟨he, hc2, hle⟩
        have hlt : vlt e.version u := vlt_of_vle_of_vlt hle hnu
        exact ⟨⟨he, hlt⟩, hc2, vle_of_vlt hlt⟩
    rw [hstep1, hstep2]
    exact eff_repair_at_n hPKd hpN hdv hvn (fun e he _ hlt => hgap e he hlt)

theorem noRedundant_repair {d : List DiffRow} {p : List (CellId × String)}
    {v n : Version} (hPKd : PK d) (hpN : (p.map Prod.fst).Nodup) (hvn : vlt v n)
    (hgap : ∀ e ∈ d, vlt e.version n → vlt e.version v)
    (hNR : NoRedundant d) : NoRedundant (repairDiffs d p v n) := by
  have hdv : ∀ e ∈ d, e.version ≠ v := by
    intro e he hv
    have h2 := hgap e he (hv ▸ hvn)
    rw [hv] at h2
    exact vlt_irrefl v h2
  intro e he
  rcases mem_repairDiffs.mp he with ⟨h, hn⟩ | h | h | h | h
  · rcases vlt_trichotomy e.version v with hlt | heq | hgt2
    · rw [effBefore_repair_lt hPKd hpN hdv hvn hlt]
      exact hNR e h
    · exact absurd heq (hdv e h)
    · have hgtn : vlt n e.version := by
        rcases vlt_trichotomy e.version n with h1 | h1 | h1
        · exact absurd (hgap e h h1) (not_vlt_iff.mpr (vle_of_vlt hgt2))
        · exact absurd h1 hn
        · exact h1
      rw [effBefore_repair_gt hPKd hpN hvn hgtn hgap]
      exact hNR e h
  · obtain ⟨c, x, he2, hp, hnp⟩ := mem_forwardAdds.mp h
    subst he2
    show some x ≠ effBefore (repairDiffs d p v n) v c
    rw [effBefore_repair_at_v hPKd hpN hdv hvn]
    intro hcontra
    exact hnp (mem_stateTable.mpr hcontra.symm)
  · obtain ⟨c, he2, ⟨y, hy⟩, hnp⟩ := mem_forwardTombs.mp h
    subst he2
    show (none : Option String) ≠ effBefore (repairDiffs d p v n) v c
    rw [effBefore_repair_at_v hPKd hpN hdv hvn, mem_stateTable.mp hy]
    simp
  · obtain ⟨c, x, he2, hxn, hxp⟩ := mem_forwardAdds.mp h
    subst he2
    show some x ≠ effBefore (repairDiffs d p v n) n c
    rw [effBefore_repair_at_n hPKd hpN hvn hgap]
    intro hcontra
    exact hxp (assocLookup_mem hcontra.symm)
  · obtain ⟨c, he2, ⟨y, hy⟩, hnk⟩ := mem_forwardTombs.mp h
    subst he2
    show (none : Option String) ≠ effBefore (repairDiffs d p v n) n c
    rw [effBefore_repair_at_n hPKd hpN hvn hgap]
    obtain ⟨z, hz⟩ := assocLookup_isSome_of_key (List.mem_map_of_mem Prod.fst hy)
    rw [hz]
    simp

theorem recordCommitted_preserves {db : DB} (df : List (String × String × String))
    (rd pt : Nat) (loc : String)
    (hG : GoodDB db) (hNR : NoRedundant db.diffs) :
    GoodDB (recordCommitted db df rd pt loc) ∧
      NoRedundant (recordCommitted db df rd pt loc).diffs := by
  by_cases hk : ((parsedRowsOf df loc).map parsedKey).Nodup
  · by_cases hv : (rd, pt) ∈ db.version_list
    · simp only [recordCommitted, record_err_dup hk hv]
      exact ⟨hG, hNR⟩
    · simp only [recordCommitted, record_ok_eq hk hv]
      have hstr := rows_strings_in_internPools db.pools (parsedRowsOf df loc)
      have hpN : ((internedSnap (internPools db.pools (parsedRowsOf df loc))
          (parsedRowsOf df loc)).map Prod.fst).Nodup :=
        internedSnap_keys_nodup hk (fun r hr => (hstr r hr).1)
          (fun r hr => (hstr r hr).2.1) (fun r hr => (hstr r hr).2.2)
      have hdv : ∀ e ∈ db.diffs, e.version ≠ (rd, pt) := by
        intro e he hveq
        exact hv (hveq ▸ hG.2.1 e he)
      have hnodup2 : (db.version_list ++ [(rd, pt)]).Nodup := by
        rw [List.nodup_append]
        refine ⟨hG.2.2, List.nodup_singleton _, ?_⟩
        intro a ha hb
        rw [List.mem_singleton] at hb
        subst hb
        exact hv ha
      cases hnv : ledgerNext db.version_list (rd, pt) with
      | none =>
        have hdiffs : (recordResult db df rd pt loc).diffs =
            extendDiffs db.diffs
              (internedSnap (internPools db.pools (parsedRowsOf df loc))
                (parsedRowsOf df loc)) (rd, pt) := by
          rw [recordResult_diffs, hnv]
        have hdltall : ∀ e ∈ db.diffs, vlt e.version (rd, pt) := by
          intro e he
          have h1 := hG.2.1 e he
          have h2 := ledgerNext_eq_none_iff.mp hnv e.version h1
          rcases vle_iff_vlt_or_eq.mp (not_vlt_iff.mp h2) with h3 | h3
          · exact h3
          · exact absurd h3 (hdv e he)
        refine ⟨⟨?_, ?_, ?_⟩, ?_⟩
        · rw [hdiffs]
          exact PK_extend hG.1 hpN hdv
        · rw [hdiffs, recordResult_versions]
          exact versOk_extend hG.2.1
        · rw [recordResult_versions]
          exact hnodup2
        · rw [hdiffs]
          exact noRedundant_extend hG.1 hpN hdltall hNR
      | some n =>
        obtain ⟨hnmem, hvltn, hmin⟩ := ledgerNext_spec hnv
        have hdiffs : (recordResult db df rd pt loc).diffs =
            repairDiffs db.diffs
              (internedSnap (internPools db.pools (parsedRowsOf df loc))
                (parsedRowsOf df loc)) (rd, pt) n := by
          rw [recordResult_diffs, hnv]
        have hgap : ∀ e ∈ db.diffs, vlt e.version n → vlt e.version (rd, pt) := by
          intro e he hlt
          have h1 := hG.2.1 e he
          rcases vlt_trichotomy e.version (rd, pt) with h2 | h2 | h2
          · exact h2
          · exact absurd h2 (hdv e he)
          · exact absurd hlt (not_vlt_iff.mpr (hmin e.version h1 h2))
        refine ⟨⟨?_, ?_, ?_⟩, ?_⟩
        · rw [hdiffs]
          exact PK_repair hG.1 hpN hdv (vlt_ne hvltn)
        · rw [hdiffs, recordResult_versions]
          exact versOk_repair hG.2.1 hnmem
        · rw [recordResult_versions]
          exact hnodup2
        · rw [hdiffs]
          exact noRedundant_repair hG.1 hpN hvltn hgap hNR
  · simp only [recordCommitted, record_err_keys hk]
    exact ⟨hG, hNR⟩

theorem ingestAllCommitted_good (items : List IngestItem) :
    ∀ db : DB, GoodDB db → NoRedundant db.diffs →
      GoodDB (ingestAllCommitted db items) ∧
        NoRedundant (ingestAllCommitted db items).diffs := by
  induction items with
  | nil => intro db hG hNR; exact ⟨hG, hNR⟩
  | cons it rest ih =>
    intro db hG hNR
    have hstep := recordCommitted_preserves it.long_raw_df it.release_date
      it.parse_time it.location hG hNR
    exact ih _ hstep.1 hstep.2

/-- C3: no redundant diffs.  After any sequence of record_long_raw calls
starting from the empty store — in-order or out-of-order, including calls
that fail and roll back — any two diff rows for the same cell that are
consecutive in version order carry different `new_value`s, a NULL
tombstone counting as distinct from every string. -/
theorem C3_no_redundant_diffs (items : List IngestItem) (e f : DiffRow)
    (he : e ∈ (ingestAllCommitted emptyDB items).diffs)
    (hf : f ∈ (ingestAllCommitted emptyDB items).diffs)
    (hcell : e.cell = f.cell) (hlt : vlt e.version f.version)
    (hconsec : ∀ g ∈ (ingestAllCommitted emptyDB items).diffs, g.cell = e.cell →
      ¬ (vlt e.version g.version ∧ vlt g.version f.version)) :
    e.new_value ≠ f.new_value := by
  obtain ⟨hG, hNR⟩ := ingestAllCommitted_good items emptyDB goodDB_empty
    (by intro e he2; simp [emptyDB] at he2)
  have hkey : effBefore (ingestAllCommitted emptyDB items).diffs f.version f.cell =
      e.new_value := by
    have hlat : latestIn ((ingestAllCommitted emptyDB items).diffs.filter
        (fun g => decide (vlt g.version f.version))) f.version f.cell = some e := by
      refine latestIn_eq_some_of ?_ hcell (vle_of_vlt hlt) ?_ ?_
      · rw [List.mem_filter]
        exact ⟨he, by simp [hlt]⟩
      · intro g hg hgc hgw
        rw [List.mem_filter] at hg
        have hglt : vlt g.version f.version := by simpa using hg.2
        rcases vlt_trichotomy g.version e.version with h2 | h2 | h2
        · exact vle_of_vlt h2
        · rw [h2]; exact vle_refl _
        · exfalso
          exact hconsec g hg.1 (hgc.trans hcell.symm) ⟨h2, hglt⟩
      · intro g hg hgc hgv
        rw [List.mem_filter] at hg
        exact hG.1 g hg.1 e he (hgc.trans hcell.symm) hgv
    rw [effBefore, eff, hlat]
    rfl
  intro hcontra
  refine hNR f hf ?_
  rw [hkey, hcontra]

/-- C4: record_snapshot is atomic.  Every record_long_raw call either
commits all of its effects together — the ledger entry, the pool growth
and the diff rows — or fails with an error after which the committed state
is exactly the original database; moreover every statement before the
ledger registration touches only the transaction-local temporary tables,
never the persistent database. -/
theorem C4_atomicity (db : DB) (df : List (String × String × String))
    (rd pt : Nat) (loc : String) :
    (∀ er, record_long_raw db df rd pt loc = .error er →
      recordCommitted db df rd pt loc = db) ∧
    (∀ db2, record_long_raw db df rd pt loc = .ok db2 →
      recordCommitted db df rd pt loc = db2 ∧
      db2.version_list = db.version_list ++ [(rd, pt)] ∧
      poolsExtend db.pools db2.pools ∧
      db2.diffs = (recordResult db df rd pt loc).diffs) ∧
    (∀ s ∈ [Step.createParsed, Step.insertParsed, Step.computePrevious,
        Step.queryNext, Step.computeNext], ∀ t t2 : Txn,
      execStep df rd pt loc s t = .ok t2 → t2.db = t.db) := by
  refine ⟨?_, ?_, ?_⟩
  · intro er h
    simp [recordCommitted, h]
  · intro db2 h
    obtain ⟨hk, hv, hdb2⟩ := record_ok_iff.mp h
    subst hdb2
    refine ⟨by simp [recordCommitted, h], recordResult_versions, ?_, rfl⟩
    rw [recordResult_pools]
    exact poolsExtend_internPools db.pools (parsedRowsOf df loc)
  · intro s hs t t2 h
    simp only [List.mem_cons, List.mem_singleton, List.not_mem_nil, or_false] at hs
    rcases hs with h1 | h1 | h1 | h1 | h1
    · subst h1
      simp only [execStep] at h
      cases h
      rfl
    · subst h1
      simp only [execStep] at h
      split at h
      · cases h; rfl
      · cases h
    · subst h1
      simp only [execStep] at h
      cases h
      rfl
    · subst h1
      simp only [execStep] at h
      cases h
      rfl
    · subst h1
      simp only [execStep] at h
      split at h
      · cases h; rfl
      · cases h; rfl

/-- C5: duplicate version rejection.  Ingesting a snapshot whose
`(release_date, parse_time)` pair is already registered fails with the
dedicated duplicate-version error — a condition distinct from any other
integrity failure — and the committed state, including the reconstructable
state at every version, is exactly the state left by the first snapshot. -/
theorem C5_duplicate_version (db : DB) (df : List (String × String × String))
    (rd pt : Nat) (loc : String)
    (hk : ((parsedRowsOf df loc).map parsedKey).Nodup)
    (hdup : (rd, pt) ∈ db.version_list) :
    record_long_raw db df rd pt loc = .error .duplicateVersion ∧
    RecordError.duplicateVersion ≠ RecordError.integrityError ∧
    recordCommitted db df rd pt loc = db ∧
    (∀ w c, eff (recordCommitted db df rd pt loc).diffs w c = eff db.diffs w c) := by
  have h1 := record_err_dup hk hdup
  have h2 : recordCommitted db df rd pt loc = db := by simp [recordCommitted, h1]
  exact ⟨h1, by decide, h2, fun w c => by rw [h2]⟩

/-- C6 counterexample: the claim that the version-ledger registration
occurs only after the forward diff has been computed is false of the code:
in the statement sequence of record_long_raw the forward-diff INSERT
(lines 282-310) does not precede the ledger INSERT (lines 244-250). -/
theorem C6_counterexample :
    ¬ (recordProgram.indexOf Step.insertForwardAdds <
        recordProgram.indexOf Step.registerVersion) := by decide

/-- C6 amended: within record_long_raw, the previous/next state
reconstruction precedes the version-ledger registration, and the
registration precedes the forward-diff insertion (the diffs table's
foreign key into the version list forces this order); no orphan version
can survive a failure because all steps run in one transaction rolled
back on error, and a ledger-registration failure (DuplicateVersion)
aborts the entire operation with no visible effect. -/
theorem C6_step_ordering :
    recordProgram.indexOf Step.computePrevious <
      recordProgram.indexOf Step.registerVersion ∧
    recordProgram.indexOf Step.registerVersion <
      recordProgram.indexOf Step.insertForwardAdds ∧
    (∀ db df rd pt loc, (rd, pt) ∈ db.version_list →
      recordCommitted db df rd pt loc = db) := by
  refine ⟨by decide, by decide, ?_⟩
  intro db df rd pt loc hdup
  by_cases hk : ((parsedRowsOf df loc).map parsedKey).Nodup
  · simp [recordCommitted, record_err_dup hk hdup]
  · simp [recordCommitted, record_err_keys hk]

/-- C7: frame condition.  A successful record_long_raw call appends
exactly one entry to the version ledger, only appends to the interning
pools, leaves the point tables untouched, creates diff rows only at the
inserted version or at the immediately-following ledger version (the
repaired one), and preserves every pre-existing diff row whose version is
not the repaired next version. -/
theorem C7_frame (db : DB) (df : List (String × String × String)) (rd pt : Nat)
    (loc : String) (db2 : DB)
    (hok : record_long_raw db df rd pt loc = .ok db2) :
    db2.version_list = db.version_list ++ [(rd, pt)] ∧
    poolsExtend db.pools db2.pools ∧
    db2.pointVersions = db.pointVersions ∧ db2.pointDiffs = db.pointDiffs ∧
    (∀ e ∈ db2.diffs, e ∈ db.diffs ∨ e.version = (rd, pt) ∨
      ledgerNext db.version_list (rd, pt) = some e.version) ∧
    (∀ e ∈ db.diffs, (∀ n, ledgerNext db.version_list (rd, pt) = some n →
      e.version ≠ n) → e ∈ db2.diffs) := by
  obtain ⟨hk, hv, hdb2⟩ := record_ok_iff.mp hok
  subst hdb2
  refine ⟨recordResult_versions, ?_, (recordResult_points).1, (recordResult_points).2,
    ?_, ?_⟩
  · rw [recordResult_pools]
    exact poolsExtend_internPools db.pools (parsedRowsOf df loc)
  · intro e he
    rw [recordResult_diffs] at he
    cases hnv : ledgerNext db.version_list (rd, pt) with
    | none =>
      rw [hnv] at he
      rcases mem_extendDiffs.mp he with h | h | h
      · exact Or.inl h
      · exact Or.inr (Or.inl (version_of_forwardAdds h))
      · exact Or.inr (Or.inl (version_of_forwardTombs h))
    | some n =>
      rw [hnv] at he
      rcases mem_repairDiffs.mp he with ⟨h, _⟩ | h | h | h | h
      · exact Or.inl h
      · exact Or.inr (Or.inl (version_of_forwardAdds h))
      · exact Or.inr (Or.inl (version_of_forwardTombs h))
      · refine Or.inr (Or.inr ?_)
        rw [version_of_forwardAdds h]
      · refine Or.inr (Or.inr ?_)
        rw [version_of_forwardTombs h]
  · intro e he hne
    rw [recordResult_diffs]
    cases hnv : ledgerNext db.version_list (rd, pt) with
    | none =>
      exact mem_extendDiffs.mpr (Or.inl he)
    | some n =>
      exact mem_repairDiffs.mpr (Or.inl ⟨he, hne n hnv⟩)

/-- String at an interned id, as produced by a pool LEFT JOIN (total on
the ids actually allocated). -/
def poolStr (pool : List String) (i : Nat) : String := (pool.get? i).getD ""

/-- One row of the update_point selection: a raw diff row whose version is
not yet in `norostat_point_version_list`, joined with the
measurement_type and week pools. -/
structure RawSel where
  version : Version
  measurement_type : String
  location_id : Nat
  week : String
  new_value : Option String
deriving DecidableEq, Repr

/-- The SELECT of update_point (lines 381-391): all raw diff rows at
versions absent from the point version ledger. -/
def rawSelection (db : DB) : List RawSel :=
  (db.diffs.filter (fun d => !decide (d.version ∈ db.pointVersions))).map
    (fun d => ⟨d.version, poolStr db.pools.measurement_type d.cell.1, d.cell.2.1,
      poolStr db.pools.week d.cell.2.2, d.new_value⟩)

/-- Drop a maximal run of ASCII digits. -/
def dropDigits : List Char → List Char
  | [] => []
  | ch :: rest => if ch.isDigit then dropDigits rest else ch :: rest

/-- Python regular expression `[0-9]+-[0-9]+$` under re.match: one or more
ASCII digits, a dash, one or more digits, then end of string. -/
def seasonPattern (s : String) : Bool :=
  match s.data with
  | [] => false
  | ch :: rest =>
    ch.isDigit &&
      (match dropDigits rest with
       | '-' :: r2 =>
         match r2 with
         | [] => false
         | d2 :: r3 => d2.isDigit && (dropDigits r3).isEmpty
       | _ => false)

/-- Model of the Python built-in `int(str)`: optional surrounding
whitespace, an optional sign, then one or more decimal digits; `none` when
the string is not such a decimal-integer literal (where Python raises
ValueError). -/
def parseIntQ (s : String) : Option Int :=
  let l1 := ((s.data.dropWhile Char.isWhitespace).reverse.dropWhile
    Char.isWhitespace).reverse
  match l1 with
  | [] => none
  | ch :: rest =>
    let sd : Int × List Char :=
      if ch = '-' then (-1, rest) else if ch = '+' then (1, rest) else (1, ch :: rest)
    if sd.2 ≠ [] ∧ sd.2.all Char.isDigit then
      some (sd.1 * ((sd.2.foldl (fun acc d2 => acc * 10 + (d2.toNat - 48)) 0 : Nat) : Int))
    else none

/-- The filter of the point-diff list comprehension (lines 394-403): keep
rows whose measurement_type matches the season pattern and whose
new_value is not the empty string (NULL passes the filter). -/
def pointMatches (db : DB) : List RawSel :=
  (rawSelection db).filter (fun r => seasonPattern r.measurement_type &&
    !decide (r.new_value = some ""))

/-- The int() conversion failure inside the comprehension. -/
inductive PointError where
  | valueError
deriving DecidableEq, Repr

/-- Conversion of one selected row to a point diff row; `seasonToEpiweek`
stands for `season_db_to_epiweek` from norostat_utils, an external helper
outside this repository slice. -/
def convPoint (seasonToEpiweek : String → String → Int) (r : RawSel) :
    Except PointError PointRow :=
  match r.new_value with
  | none => .ok ⟨r.version, r.location_id, seasonToEpiweek r.measurement_type r.week, none⟩
  | some str =>
    match parseIntQ str with
    | some k =>
      .ok ⟨r.version, r.location_id, seasonToEpiweek r.measurement_type r.week, some k⟩
    | none => .error .valueError

/-- The whole comprehension: convert every matching row, aborting at the
first ValueError exactly as the Python list comprehension does. -/
def convAll (seasonToEpiweek : String → String → Int) :
    List RawSel → Except PointError (List PointRow)
  | [] => .ok []
  | r :: rest =>
    match convPoint seasonToEpiweek r with
    | .ok pr =>
      match convAll seasonToEpiweek rest with
      | .ok l => .ok (pr :: l)
      | .error e => .error e
    | .error e => .error e

/-- Model of update_point (lines 375-420): select the raw diffs at
unprocessed versions, convert the season rows, then append every raw
version not yet in the point ledger to `norostat_point_version_list` and
the converted rows to `norostat_point_diffs`, in one transaction. -/
def update_point (seasonToEpiweek : String → String → Int) (db : DB) :
    Except PointError DB :=
  match convAll seasonToEpiweek (pointMatches db) with
  | .ok ins =>
    .ok { db with
      pointVersions := db.pointVersions ++
        ((db.version_list.filter (fun u => !decide (u ∈ db.pointVersions))).dedup),
      pointDiffs := db.pointDiffs ++ ins }
  | .error e => .error e

/-- The durably committed state of an update_point call. -/
def updatePointCommitted (seasonToEpiweek : String → String → Int) (db : DB) : DB :=
  match update_point seasonToEpiweek db with
  | .ok db2 => db2
  | .error _ => db

theorem convAll_ok_iff (f : String → String → Int) (l : List RawSel) :
    (∃ ins, convAll f l = .ok ins) ↔
      ∀ r ∈ l, ∀ s, r.new_value = some s → (parseIntQ s).isSome := by
  induction l with
  | nil => simp [convAll]
  | cons r rest ih =>
    constructor
    · rintro ⟨ins, h⟩
      simp only [convAll] at h
      cases hc : convPoint f r with
      | error e => rw [hc] at h; cases h
      | ok pr =>
        rw [hc] at h
        cases hr : convAll f rest with
        | error e => rw [hr] at h; cases h
        | ok l2 =>
          intro r2 hr2 s hs
          rcases List.mem_cons.mp hr2 with he | hm
          · subst he
            simp only [convPoint, hs] at hc
            cases hp : parseIntQ s with
            | none => rw [hp] at hc; cases hc
            | some k => simp
          · exact ih.mp ⟨l2, hr⟩ r2 hm s hs
    · intro hall
      have h1 : ∃ pr, convPoint f r = .ok pr := by
        cases hnv : r.new_value with
        | none =>
          exact ⟨⟨r.version, r.location_id, f r.measurement_type r.week, none⟩,
            by simp [convPoint, hnv]⟩
        | some s =>
          have h2 := hall r (List.mem_cons_self _ _) s hnv
          cases hp : parseIntQ s with
          | none => rw [hp] at h2; cases h2
          | some k =>
            exact ⟨⟨r.version, r.location_id, f r.measurement_type r.week, some k⟩,
              by simp [convPoint, hnv, hp]⟩
      obtain ⟨pr, hpr⟩ := h1
      obtain ⟨l2, hl2⟩ := ih.mpr
        (fun r2 hm s hs => hall r2 (List.mem_cons_of_mem r hm) s hs)
      exact ⟨pr :: l2, by simp [convAll, hpr, hl2]⟩

/-- C10: the point projection's value conversion is partial.  update_point
succeeds exactly when every selected raw diff that matches the season
pattern and carries a non-NULL, non-empty new_value holds a
decimal-integer string; on any violating row it fails before writing, and
the committed state is unchanged. -/
theorem C10_point_conversion_domain (f : String → String → Int) (db : DB) :
    ((∃ db2, update_point f db = .ok db2) ↔
      ∀ r ∈ pointMatches db, ∀ s, r.new_value = some s → (parseIntQ s).isSome) ∧
    (∀ er, update_point f db = .error er → updatePointCommitted f db = db) := by
  constructor
  · rw [← convAll_ok_iff f (pointMatches db)]
    constructor
    · rintro ⟨db2, h⟩
      simp only [update_point] at h
      cases hc : convAll f (pointMatches db) with
      | error e => rw [hc] at h; cases h
      | ok ins => exact ⟨ins, rfl⟩
    · rintro ⟨ins, h⟩
      refine ⟨{ db with
        pointVersions := db.pointVersions ++
          ((db.version_list.filter (fun u => !decide (u ∈ db.pointVersions))).dedup),
        pointDiffs := db.pointDiffs ++ ins }, ?_⟩
      simp [update_point, h]
  · intro er h
    simp [updatePointCommitted, h]

/-- C8 amended: the point sub-ledger tracks processed versions, not
touched versions.  A successful update_point leaves the point version
ledger holding exactly the old point versions plus every raw version —
including raw versions for which no point diff row was emitted; this is
what makes re-running the projection idempotent. -/
theorem C8_point_ledger_tracks_processed (f : String → String → Int) (db db2 : DB)
    (hok : update_point f db = .ok db2) :
    ∀ u, u ∈ db2.pointVersions ↔ u ∈ db.pointVersions ∨ u ∈ db.version_list := by
  intro u
  simp only [update_point] at hok
  cases hc : convAll f (pointMatches db) with
  | error e => rw [hc] at hok; cases hok
  | ok ins =>
    rw [hc] at hok
    cases hok
    by_cases hu : u ∈ db.pointVersions <;>
      simp [List.mem_append, List.mem_dedup, List.mem_filter, hu]

/-- A store with one recorded raw version whose only diff row carries a
measurement_type that does not match the season pattern, so the
projection emits nothing for it. -/
def exDB8 : DB :=
  { version_list := [(1, 1)]
    pools := ⟨["foo"], ["loc"], ["wk"]⟩
    diffs := [⟨(1, 1), (0, 0, 0), some "5"⟩]
    pointVersions := []
    pointDiffs := [] }

/-- C8 counterexample: after update_point on exDB8, version (1,1) sits in
norostat_point_version_list although zero point diff rows were emitted —
the sub-ledger does not contain only versions actually touched. -/
theorem C8_counterexample :
    (1, 1) ∈ (updatePointCommitted (fun _ _ => 0) exDB8).pointVersions ∧
    (updatePointCommitted (fun _ _ => 0) exDB8).pointDiffs = [] := by
  constructor
  · decide
  · decide

/-- A single-row snapshot whose only value is the empty string. -/
def exDF9 : List (String × String × String) := [("w1", "m1", "")]

/-- C9 counterexample: record_long_raw accepts a snapshot containing an
empty value — there is no MalformedSnapshot rejection — and records the
empty string as a diff value. -/
theorem C9_counterexample :
    (∃ db2, record_long_raw emptyDB exDF9 1 1 "l1" = .ok db2) ∧
    (⟨(1, 1), (0, 0, 0), some ""⟩ : DiffRow) ∈
      (recordCommitted emptyDB exDF9 1 1 "l1").diffs := by
  constructor
  · refine ⟨recordResult emptyDB exDF9 1 1 "l1", record_ok_eq ?_ ?_⟩ <;> decide
  · decide

/-- C9 amended: the core performs no value validation.  record_long_raw
succeeds exactly when the parsed primary key is duplicate-free and the
version is fresh — values, empty strings included, never cause rejection —
and an empty-string value that differs from the previous state is
recorded in the diff chain like any other value (the parsed table forbids
only NULL; empty values are filtered only downstream, by update_point). -/
theorem C9_empty_values_stored (db : DB) (df : List (String × String × String))
    (rd pt : Nat) (loc : String) :
    ((∃ db2, record_long_raw db df rd pt loc = .ok db2) ↔
      ((parsedRowsOf df loc).map parsedKey).Nodup ∧ (rd, pt) ∉ db.version_list) ∧
    (∀ r ∈ parsedRowsOf df loc, r.value = "" →
      ((parsedRowsOf df loc).map parsedKey).Nodup → (rd, pt) ∉ db.version_list →
      (tripleId (internPools db.pools (parsedRowsOf df loc)) r, "") ∉
        stateTable db.diffs (rd, pt) →
      (⟨(rd, pt), tripleId (internPools db.pools (parsedRowsOf df loc)) r, some ""⟩ :
        DiffRow) ∈ (recordCommitted db df rd pt loc).diffs) := by
  constructor
  · constructor
    · rintro ⟨db2, h⟩
      obtain ⟨hk, hv, _⟩ := record_ok_iff.mp h
      exact ⟨hk, hv⟩
    · rintro ⟨hk, hv⟩
      exact ⟨recordResult db df rd pt loc, record_ok_eq hk hv⟩
  · intro r hr hval hk hv hnprev
    have hmemp : (tripleId (internPools db.pools (parsedRowsOf df loc)) r, "") ∈
        internedSnap (internPools db.pools (parsedRowsOf df loc))
          (parsedRowsOf df loc) := by
      refine List.mem_map.mpr ⟨r, hr, ?_⟩
      rw [hval]
    have hfA : (⟨(rd, pt), tripleId (internPools db.pools (parsedRowsOf df loc)) r,
        some ""⟩ : DiffRow) ∈
        forwardAdds (internedSnap (internPools db.pools (parsedRowsOf df loc))
          (parsedRowsOf df loc)) (stateTable db.diffs (rd, pt)) (rd, pt) :=
      mem_forwardAdds.mpr ⟨_, "", rfl, hmemp, hnprev⟩
    simp only [recordCommitted, record_ok_eq hk hv]
    rw [recordResult_diffs]
    cases hnv : ledgerNext db.version_list (rd, pt) with
    | none => exact mem_extendDiffs.mpr (Or.inr (Or.inl hfA))
    | some n => exact mem_repairDiffs.mpr (Or.inr (Or.inl hfA))

/-- Concrete ingestion inputs used to instantiate the claim theorems. -/
def witItem1 : IngestItem := ⟨[("wk1", "mt1", "4"), ("wk2", "mt1", "5")], 1, 0, "locA"⟩

def witItem2 : IngestItem := ⟨[("wk1", "mt1", "6")], 2, 0, "locA"⟩

def witItem3 : IngestItem := ⟨[("wk1", "mt1", "7")], 3, 0, "locA"⟩

theorem C1_roundtrip_witness :
    ∃ db2, ingestAll emptyDB [witItem1, witItem2] = .ok db2 ∧
      ∀ w c, eff db2.diffs w c =
        histState ([witItem1, witItem2].map
          (fun it => (internedSnap db2.pools it.rows, it.version))) w c :=
  C1_roundtrip [witItem1, witItem2] (by decide) (by decide)

theorem C2_out_of_order_witness :
    ∃ db3, ingestAll emptyDB [witItem1, witItem3, witItem2] = .ok db3 ∧
      ∀ w, vle witItem3.version w → ∀ c,
        eff db3.diffs w c = assocLookup c (internedSnap db3.pools witItem3.rows) :=
  C2_out_of_order witItem1 witItem3 witItem2 (by decide) (by decide) (by decide)
    (by decide) (by decide)

theorem C3_no_redundant_diffs_witness :
    (⟨(1, 0), (0, 0, 0), some "4"⟩ : DiffRow).new_value ≠
      (⟨(2, 0), (0, 0, 0), some "6"⟩ : DiffRow).new_value :=
  C3_no_redundant_diffs [witItem1, witItem2] ⟨(1, 0), (0, 0, 0), some "4"⟩
    ⟨(2, 0), (0, 0, 0), some "6"⟩ (by decide) (by decide) (by decide) (by decide)
    (by decide)

theorem C4_atomicity_witness :
    recordCommitted exDB8 exDF9 1 1 "l1" = exDB8 :=
  (C4_atomicity exDB8 exDF9 1 1 "l1").1 .duplicateVersion
    (record_err_dup (by decide) (by decide))

theorem C5_duplicate_version_witness :
    record_long_raw exDB8 exDF9 1 1 "l1" = .error .duplicateVersion ∧
    RecordError.duplicateVersion ≠ RecordError.integrityError ∧
    recordCommitted exDB8 exDF9 1 1 "l1" = exDB8 ∧
    (∀ w c, eff (recordCommitted exDB8 exDF9 1 1 "l1").diffs w c =
      eff exDB8.diffs w c) :=
  C5_duplicate_version exDB8 exDF9 1 1 "l1" (by decide) (by decide)

theorem C6_step_ordering_witness :
    recordCommitted exDB8 [("w1", "m1", "9")] 1 1 "l1" = exDB8 :=
  C6_step_ordering.2.2 exDB8 [("w1", "m1", "9")] 1 1 "l1" (by decide)

theorem C7_frame_witness :
    (recordResult emptyDB exDF9 1 1 "l1").version_list =
      emptyDB.version_list ++ [(1, 1)] ∧
    poolsExtend emptyDB.pools (recordResult emptyDB exDF9 1 1 "l1").pools ∧
    (recordResult emptyDB exDF9 1 1 "l1").pointVersions = emptyDB.pointVersions ∧
    (recordResult emptyDB exDF9 1 1 "l1").pointDiffs = emptyDB.pointDiffs ∧
    (∀ e ∈ (recordResult emptyDB exDF9 1 1 "l1").diffs, e ∈ emptyDB.diffs ∨
      e.version = (1, 1) ∨ ledgerNext emptyDB.version_list (1, 1) = some e.version) ∧
    (∀ e ∈ emptyDB.diffs, (∀ n, ledgerNext emptyDB.version_list (1, 1) = some n →
      e.version ≠ n) → e ∈ (recordResult emptyDB exDF9 1 1 "l1").diffs) :=
  C7_frame emptyDB exDF9 1 1 "l1" (recordResult emptyDB exDF9 1 1 "l1")
    (record_ok_eq (by decide) (by decide))

theorem C8_point_ledger_witness :
    (1, 1) ∈ (updatePointCommitted (fun _ _ => 0) exDB8).pointVersions ↔
      (1, 1) ∈ exDB8.pointVersions ∨ (1, 1) ∈ exDB8.version_list :=
  C8_point_ledger_tracks_processed (fun _ _ => 0) exDB8
    (updatePointCommitted (fun _ _ => 0) exDB8) (by rfl) (1, 1)

theorem C9_empty_values_stored_witness :
    (⟨(1, 1), (0, 0, 0), some ""⟩ : DiffRow) ∈
      (recordCommitted emptyDB exDF9 1 1 "l1").diffs :=
  (C9_empty_values_stored emptyDB exDF9 1 1 "l1").2 ⟨"m1", "l1", "w1", ""⟩
    (by decide) rfl (by decide) (by decide) (by decide)

/-- A store whose one unprocessed raw diff matches the season pattern but
carries a non-numeric value. -/
def exDB10 : DB :=
  { version_list := [(1, 1)]
    pools := ⟨["1-2"], ["loc"], ["2023-24"]⟩
    diffs := [⟨(1, 1), (0, 0, 0), some "abc"⟩]
    pointVersions := []
    pointDiffs := [] }

theorem C10_point_conversion_witness :
    updatePointCommitted (fun _ _ => 0) exDB10 = exDB10 :=
  (C10_point_conversion_domain (fun _ _ => 0) exDB10).2 .valueError (by rfl)
